import Mathlib

/-!
Verification of the event scheduling and state-consistency core of the
failsafe chat bot (a Destiny 2 LFG Discord bot).

The Rust sources are shallowly embedded: machine integers become Nat/Int
(with explicit wraparound where the source wraps), chrono timestamps become
Int (seconds since an arbitrary epoch; chrono DateTime comparison and
subtraction is instant-based), BTreeSet/BTreeMap become sorted lists or
Finsets, and fallible functions return Option/Except.

Source files embedded here:
  src/activity.rs        (Activity enum)
  src/event/mod.rs       (EventId, EventMember, Event, join/leave, EventChange,
                          EventManagerState.next_id, modify_event,
                          EventManager.cleanup_event)
  src/event/alert.rs     (ScheduledAction, EventSchedulerConfig,
                          EventScheduler.event_changed,
                          EventSchedulerState.perform_actions)
  src/embed/channel.rs   (ChannelUpdate, ChannelEvents.apply_event_change,
                          ChannelEvents.create_updates)
-/

namespace Failsafe

/-- All supported Destiny 2 activities, in declaration order
(src/activity.rs, define_activities). -/
inductive Activity
  | KingsFall
  | VowOfTheDisciple
  | VaultOfGlass
  | DeepStoneCrypt
  | GardenOfSalvation
  | LastWish
  | Duality
  | GraspOfAvarice
  | Prophecy
  | PitOfHeresy
  | ShatteredThrone
  | IronBanner
  | TrialsOfOsiris
  | Quickplay
  | Competitive
  | PrivateMatch
  | OtherPvP
  | Gambit
  | Grandmaster
  | Nightfall
  | Wellspring
  | Harbinger
  | Presage
  | Story
  | OtherPvE
  | Override
  | Battleground
  | WrathbornHunt
  | Custom
deriving DecidableEq, Fintype, Repr

/-- Discriminant of an Activity variant; the derived Rust Ord on the
fieldless Activity enum orders by declaration order, i.e. by this value. -/
def Activity.toNat : Activity → Nat
  | .KingsFall => 0
  | .VowOfTheDisciple => 1
  | .VaultOfGlass => 2
  | .DeepStoneCrypt => 3
  | .GardenOfSalvation => 4
  | .LastWish => 5
  | .Duality => 6
  | .GraspOfAvarice => 7
  | .Prophecy => 8
  | .PitOfHeresy => 9
  | .ShatteredThrone => 10
  | .IronBanner => 11
  | .TrialsOfOsiris => 12
  | .Quickplay => 13
  | .Competitive => 14
  | .PrivateMatch => 15
  | .OtherPvP => 16
  | .Gambit => 17
  | .Grandmaster => 18
  | .Nightfall => 19
  | .Wellspring => 20
  | .Harbinger => 21
  | .Presage => 22
  | .Story => 23
  | .OtherPvE => 24
  | .Override => 25
  | .Battleground => 26
  | .WrathbornHunt => 27
  | .Custom => 28

/-- Unique identifier for an Event (src/event/mod.rs, struct EventId).
The sequence number idx is a u8 in the source; it is a Nat here, with
wraparound made explicit in the allocator. -/
structure EventId where
  activity : Activity
  idx : Nat
deriving DecidableEq, Repr

/-- A participant snapshot (src/event/mod.rs, struct EventMember).
The source's UserId (a u64) is a Nat here.  Note that the source's
PartialEq for EventMember compares ids only; every embedded function below
compares ids explicitly, as the source's join/leave do. -/
structure EventMember where
  id : Nat
  name : String
deriving DecidableEq, Repr

/-- Which participant list a member joins (src/event/mod.rs, enum JoinKind). -/
inductive JoinKind
  | Confirmed
  | Alternate
  | Maybe
deriving DecidableEq, Repr

/-- A single scheduled event (src/event/mod.rs, struct Event).  The
chrono DateTime datetime is an Int timestamp in seconds. -/
structure Event where
  id : EventId
  activity : Activity
  datetime : Int
  description : String
  groupSize : Nat
  recur : Bool
  creator : EventMember
  confirmed : List EventMember
  alternates : List EventMember
  maybe : List EventMember
  alertMessage : Option String
deriving DecidableEq, Repr

/-- Event changes fanned out to the scheduler and the view updaters
(src/event/mod.rs, enum EventChange).  Each variant carries the resulting
snapshot (post-mutation for Added/Edited/Alert, pre-removal for Deleted). -/
inductive EventChange
  | Added (e : Event)
  | Deleted (e : Event)
  | Edited (e : Event)
  | Alert (e : Event)
deriving DecidableEq, Repr

/-! ### Event.join / Event.leave (src/event/mod.rs lines 230-265) -/

/-- Event::leave.  Removes the member (by id) from all three lists; errors
(None) if the member was in none of them. -/
def Event.leave (e : Event) (memberId : Nat) : Option Event :=
  let countBefore := e.confirmed.length + e.alternates.length + e.maybe.length
  let e' := { e with
    confirmed := e.confirmed.filter (fun u => u.id ≠ memberId),
    alternates := e.alternates.filter (fun u => u.id ≠ memberId),
    maybe := e.maybe.filter (fun u => u.id ≠ memberId) }
  let countAfter := e'.confirmed.length + e'.alternates.length + e'.maybe.length
  if countBefore = countAfter then none else some e'

/-- The list selected by a JoinKind. -/
def Event.listOf (e : Event) : JoinKind → List EventMember
  | .Confirmed => e.confirmed
  | .Alternate => e.alternates
  | .Maybe => e.maybe

/-- Replace the list selected by a JoinKind. -/
def Event.setList (e : Event) (kind : JoinKind) (l : List EventMember) : Event :=
  match kind with
  | .Confirmed => { e with confirmed := l }
  | .Alternate => { e with alternates := l }
  | .Maybe => { e with maybe := l }

/-- Event::join.  allowDup models the ALLOW_DUPLICATE_JOIN debug override
(a lazy_static read from the environment in the source).  Errors (None)
with the source's AlreadyInEvent error when, with the override off, the
member's id already occurs in the list selected by kind; otherwise removes
the member from any other list (leave, result ignored) and appends the
member to the selected list. -/
def Event.join (allowDup : Bool) (e : Event) (member : EventMember)
    (kind : JoinKind) : Option Event :=
  if !allowDup ∧ (e.listOf kind).any (fun u => u.id = member.id) then
    none
  else
    let e₁ := if !allowDup then (e.leave member.id).getD e else e
    some (e₁.setList kind (e₁.listOf kind ++ [member]))

/-! ### EventManagerState.next_id (src/event/mod.rs lines 506-530)

The events collection (a BTreeMap from EventId to Event in the source,
where every value is stored under its own id) is embedded as a list of
events; key uniqueness is the Nodup-ids invariant carried by theorems.
The per-activity next_id counter (a HashMap whose entries are read with
or_insert(1)) is embedded as a total function defaulting to 1. -/

/-- One step of the allocator scan: u8 wrapping_add(1).max(1). -/
def stepId (n : Nat) : Nat := max ((n + 1) % 256) 1

/-- The candidate ids visited by next_id's successors iterator: the start
value, then repeated stepId, stopping when the next step would return to
the start.  The source iterator carries no fuel; the fuel 256 used by
scanFrom is never exhausted for the reachable counter values 1..=255. -/
def scanIds : Nat → Nat → Nat → List Nat
  | 0, _, cur => [cur]
  | fuel + 1, start, cur =>
    cur :: (if stepId cur = start then [] else scanIds fuel start (stepId cur))

/-- All candidates scanned by next_id starting from the counter value. -/
def scanFrom (start : Nat) : List Nat := scanIds 256 start start

/-- events.contains_key for the embedded collection. -/
def containsId (events : List Event) (id : EventId) : Bool :=
  events.any (fun e => e.id = id)

/-- The part of EventManagerState that next_id and cleanup_event read and
write (src/event/mod.rs, struct EventManagerState; the store and the
embed/scheduler handles are modeled at their use sites). -/
structure EventManagerState where
  events : List Event
  nextIdCounter : Activity → Nat

/-- EventManagerState::next_id.  Scans forward from the per-activity
counter for an id not used by an existing event of that activity; on
success the counter is set past the returned value.  Errors (None) when
the scan finds every candidate occupied (the source's "Maximum number of
events created" error). -/
def nextId (st : EventManagerState) (activity : Activity) :
    Option (EventId × EventManagerState) :=
  match (scanFrom (st.nextIdCounter activity)).find?
      (fun n => !containsId st.events ⟨activity, n⟩) with
  | none => none
  | some found =>
    some (⟨activity, found⟩,
      { st with nextIdCounter :=
          fun a => if a = activity then stepId found else st.nextIdCounter a })

/-- The order in which the claim describes the scan: forward from the
counter c through 255, then wrapping around to 1, .., c-1. -/
def claimScan (c : Nat) : List Nat :=
  List.range' c (256 - c) ++ List.range' 1 (c - 1)

/-! ### EventManagerState.modify_event (src/event/mod.rs lines 489-502) -/

/-- EventManagerState::modify_event.  The closure f mutates the collection
and reports an optional EventChange plus a result value; a non-empty
change triggers a store write (modeled by the storeOk flag) whose failure
is propagated with the question-mark operator.  The scheduler and embed
fan-out that follows a successful store is modeled separately
(eventChanged, applyEventChange below).  The source closure could in
principle mutate the collection before failing; none of the closures
passed in the source do, and the error case here returns the collection
unchanged. -/
def modifyEvent {T : Type} (storeOk : Bool) (events : List Event)
    (f : List Event → Except String (List Event × Option EventChange × T)) :
    List Event × Except String T :=
  match f events with
  | .error err => (events, .error err)
  | .ok (events', change?, ret) =>
    match change? with
    | none => (events', .ok ret)
    | some _ =>
      if storeOk then (events', .ok ret)
      else (events', .error "store error")

/-! ### EventManager.cleanup_event (src/event/mod.rs lines 723-766) -/

/-- chrono Duration::num_weeks for a duration of the given seconds:
num_seconds divided by 86400 (num_days) then by 7, both divisions
truncating toward zero as in Rust. -/
def numWeeks (seconds : Int) : Int := Int.tdiv (Int.tdiv seconds 86400) 7

def secondsPerWeek : Int := 604800

/-- EventManager::cleanup_event at current time now, with persistence
succeeding.  Removes the event (error when the id does not exist), and,
when it recurs, allocates a fresh id and inserts the next occurrence
advanced by Utc::now().signed_duration_since(old.datetime).num_weeks() + 1
weeks, with the same activity/description/group_size/creator, empty
participant lists, recur preserved and no alert message.  Errors from
next_id propagate (question-mark operator in the source). -/
def cleanupEvent (now : Int) (st : EventManagerState) (id : EventId) :
    Option EventManagerState :=
  match st.events.find? (fun e => e.id = id) with
  | none => none
  | some old =>
    let st₁ : EventManagerState :=
      { st with events := st.events.filter (fun e => e.id ≠ id) }
    if old.recur then
      let weeksToAdd := numWeeks (now - old.datetime) + 1
      match nextId st₁ old.activity with
      | none => none
      | some (newId, st₂) =>
        some { st₂ with events := st₂.events ++
          [{ id := newId
             activity := old.activity
             datetime := old.datetime + secondsPerWeek * weeksToAdd
             description := old.description
             groupSize := old.groupSize
             recur := true
             creator := old.creator
             confirmed := []
             alternates := []
             maybe := []
             alertMessage := none }] }
    else
      some st₁

/-! ### The event scheduler (src/event/alert.rs) -/

/-- The kind of a scheduled action (src/event/alert.rs, enum EventAction). -/
inductive EventAction
  | Alert
  | Cleanup
deriving DecidableEq, Repr

/-- A pending timed action (src/event/alert.rs, struct ScheduledAction).
actionDatetime is when it fires; eventDatetime is the event's scheduled
time when the action was derived (the staleness guard). -/
structure ScheduledAction where
  actionDatetime : Int
  id : EventId
  action : EventAction
  eventDatetime : Int
deriving DecidableEq, Repr

/-- ScheduledAction::new: fire at event.datetime + delta, recording the
event's current datetime. -/
def ScheduledAction.new (e : Event) (delta : Int) (action : EventAction) :
    ScheduledAction :=
  { actionDatetime := e.datetime + delta
    id := e.id
    action := action
    eventDatetime := e.datetime }

/-- ScheduledAction::expired: the firing time has been reached
(action_datetime <= now). -/
def ScheduledAction.expired (a : ScheduledAction) (now : Int) : Bool :=
  decide (a.actionDatetime ≤ now)

/-- Alert lead and cleanup grace durations in seconds
(src/event/alert.rs, struct EventSchedulerConfig; std::time::Duration is
unsigned, hence Nat). -/
structure EventSchedulerConfig where
  alert : Nat
  cleanup : Nat
deriving DecidableEq, Repr

/-- EventSchedulerConfig::actions_for_event: the Alert action at
datetime - alert and the Cleanup action at datetime + cleanup. -/
def EventSchedulerConfig.actionsForEvent (cfg : EventSchedulerConfig)
    (e : Event) : List ScheduledAction :=
  [ScheduledAction.new e (-(cfg.alert : Int)) EventAction.Alert,
   ScheduledAction.new e (cfg.cleanup : Int) EventAction.Cleanup]

/-- EventScheduler::event_changed acting on the pending-action set (the
source's BTreeSet modeled as a Finset; now is the injected time source's
utc_now()).  Edited/Deleted first drop every action with the changed
event's id (retain); Added/Edited then insert the freshly derived actions
that are not already expired (extend + filter).

Modelled from the spec: the source snapshot's match in event_changed
(src/event/alert.rs lines 168-184) has no arm for EventChange::Alert even
though the variant exists in src/event/mod.rs; following spec section 4.2,
which prescribes behavior only for Edited/Deleted/Added, an Alert change
leaves the pending set unchanged. -/
def eventChanged (cfg : EventSchedulerConfig) (now : Int)
    (actions : Finset ScheduledAction) (change : EventChange) :
    Finset ScheduledAction :=
  let actions₁ := match change with
    | .Edited e => actions.filter (fun a => a.id ≠ e.id)
    | .Deleted e => actions.filter (fun a => a.id ≠ e.id)
    | .Added _ => actions
    | .Alert _ => actions
  match change with
  | .Added e =>
    actions₁ ∪ ((cfg.actionsForEvent e).filter (fun a => !a.expired now)).toFinset
  | .Edited e =>
    actions₁ ∪ ((cfg.actionsForEvent e).filter (fun a => !a.expired now)).toFinset
  | .Deleted _ => actions₁
  | .Alert _ => actions₁

/-- The staleness check made before performing an action
(src/event/alert.rs lines 239-242): look the event up by id in the
handler; stale when the event no longer exists or its datetime differs
from the recorded eventDatetime (Option::unwrap_or(true)). -/
def staleFor {σ : Type} (lookup : σ → EventId → Option Event) (s : σ)
    (a : ScheduledAction) : Bool :=
  match lookup s a.id with
  | some e => decide (e.datetime ≠ a.eventDatetime)
  | none => true

/-- The outcome of one perform_actions pass: the performed actions each
paired with the handler state at the moment perform_action was invoked,
the due-but-skipped (stale or vanished) actions, the actions left pending,
and the final handler state. -/
structure PerformOutcome (σ : Type) where
  performed : List (ScheduledAction × σ)
  skipped : List ScheduledAction
  remaining : List ScheduledAction
  final : σ

/-- EventSchedulerState::perform_actions (src/event/alert.rs lines
229-260).  The BTreeSet of pending actions is modeled as a list in its
iteration order (ascending); pop_if pops the first element while it is
expired.  For each popped action the staleness check runs against the
handler's current state; stale actions are skipped (the source logs info
and continues), fresh ones are performed.  The handler is modeled as an
arbitrary state σ with a lookup function (with_event_for_id) and a
transition function (perform_action, whose errors the source logs and
ignores), so edits, deletes and the actions' own effects on later lookups
are all covered. -/
def performActions {σ : Type} (lookup : σ → EventId → Option Event)
    (perform : σ → ScheduledAction → σ) (now : Int) :
    σ → List ScheduledAction → PerformOutcome σ
  | s, [] => ⟨[], [], [], s⟩
  | s, a :: rest =>
    if a.expired now then
      if staleFor lookup s a then
        let r := performActions lookup perform now s rest
        ⟨r.performed, a :: r.skipped, r.remaining, r.final⟩
      else
        let r := performActions lookup perform now (perform s a) rest
        ⟨(a, s) :: r.performed, r.skipped, r.remaining, r.final⟩
    else ⟨[], [], a :: rest, s⟩

/-! ### The event channel view synchronizer (src/embed/channel.rs) -/

/-- A single update to an event channel (src/embed/channel.rs, enum
ChannelUpdate): post a new message at the end, update the message at idx,
or delete the message at idx. -/
inductive ChannelUpdate
  | New (event : Event)
  | Update (event : Event) (idx : Nat)
  | Delete (idx : Nat)
deriving DecidableEq, Repr

/-- The strict order underlying Event's derived Ord: by datetime, then by
id (activity discriminant, then index) (src/event/mod.rs lines 209-216). -/
def Event.ordLt (a b : Event) : Prop :=
  a.datetime < b.datetime ∨
    (a.datetime = b.datetime ∧
      (a.id.activity.toNat < b.id.activity.toNat ∨
        (a.id.activity.toNat = b.id.activity.toNat ∧ a.id.idx < b.id.idx)))

/-- The Ord key of an Event: comparisons look only at datetime and id. -/
def Event.ordKey (e : Event) : Int × Nat × Nat :=
  (e.datetime, e.id.activity.toNat, e.id.idx)

/-- The non-strict Event order (Ordering::is_le of the derived Ord). -/
def Event.ordLe (a b : Event) : Prop :=
  Event.ordLt a b ∨ Event.ordKey a = Event.ordKey b

instance : DecidableRel Event.ordLt := fun a b =>
  inferInstanceAs (Decidable (_ ∨ _))

instance : DecidableRel Event.ordLe := fun a b =>
  inferInstanceAs (Decidable (_ ∨ _))

/-- The contents of a BTreeSet of events in iteration order: ascending in
the Event order. -/
def sortEvents (l : List Event) : List Event :=
  List.insertionSort Event.ordLe l

/-- The filtered, sorted view of a collection of events: what
ChannelEvents::new builds its BTreeSet from, and the reference view of
claim C1. -/
def viewOf (filt : Event → Bool) (coll : List Event) : List Event :=
  sortEvents (coll.filter filt)

/-- The view synchronizer state (src/embed/channel.rs, struct
ChannelEvents): the filter closure (pure here; the closures the source
installs are pure functions of the event) and the BTreeSet of matching
events in iteration order. -/
structure ChannelEvents where
  filt : Event → Bool
  events : List Event

/-- ChannelEvents::new: collect the filtered initial events into the set. -/
def ChannelEvents.new (filt : Event → Bool) (initial : List Event) :
    ChannelEvents :=
  { filt := filt, events := sortEvents (initial.filter filt) }

/-- ChannelEvents::apply_event_change without the final create_updates
call: remove the old entry with the changed event's id if the change is a
removal/replacement kind (recording its index), insert the new snapshot in
order if the change is an insertion/replacement kind and the filter admits
it (recording its index), and return the new state with both indices.
BTreeSet::remove of the found element is eraseIdx at its position;
BTreeSet::insert is orderedInsert (no Ord-equal element is present under
the unique-ids invariant); the source's position-of-just-inserted expect
is findIdx? here.

Modelled from the spec: the source snapshot's matches (src/embed/channel.rs
lines 414-460) have no arm for EventChange::Alert even though the variant
exists in src/event/mod.rs; following spec sections 4.3 step 1 and 2,
which list Alert together with Edited in both the removal and the
insertion step, an Alert change is handled exactly like an Edited one. -/
def applyEventChange (st : ChannelEvents) (change : EventChange) :
    ChannelEvents × Option Nat × Option Nat :=
  let removeOld : Event → List Event × Option Nat := fun e =>
    match st.events.findIdx? (fun old => old.id = e.id) with
    | some i => (st.events.eraseIdx i, some i)
    | none => (st.events, none)
  let step₁ : List Event × Option Nat := match change with
    | .Deleted e => removeOld e
    | .Edited e => removeOld e
    | .Alert e => removeOld e
    | .Added _ => (st.events, none)
  let insertNew : Event → List Event × Option Nat := fun e =>
    if st.filt e then
      let evs := List.orderedInsert Event.ordLe e step₁.1
      (evs, evs.findIdx? (fun x => x.id = e.id))
    else (step₁.1, none)
  let step₂ : List Event × Option Nat := match change with
    | .Added e => insertNew e
    | .Edited e => insertNew e
    | .Alert e => insertNew e
    | .Deleted _ => (step₁.1, none)
  ({ st with events := step₂.1 }, step₁.2, step₂.2)

/-- The update-emitting iterator of create_updates: enumerate the set and
emit an Update for every index inside [lo, hi) (the source's
update_range.contains filter), in increasing order.  The running index i
plays the role of enumerate(). -/
def updatesFrom (i lo hi : Nat) : List Event → List ChannelUpdate
  | [] => []
  | e :: rest =>
    (if lo ≤ i ∧ i < hi then [ChannelUpdate.Update e i] else []) ++
      updatesFrom (i + 1) lo hi rest

/-- ChannelEvents::create_updates (src/embed/channel.rs lines 464-500):
from the indices where an event was removed (old) and inserted (new),
build the updates: nothing for (None, None); updates on [new, len-1) plus
a final New of the set's last (greatest) event for (None, Some new) (the
source's expect on a nonempty set is unreachable there and becomes an
empty list); a single Delete for (Some old, None); updates on
[min, max+1) for (Some old, Some new). -/
def createUpdates (events : List Event) (oldIdx newIdx : Option Nat) :
    List ChannelUpdate :=
  match oldIdx, newIdx with
  | none, none => []
  | none, some nu =>
    updatesFrom 0 nu (events.length - 1) events ++
      (match events.getLast? with
       | some e => [ChannelUpdate.New e]
       | none => [])
  | some old, none => [ChannelUpdate.Delete old]
  | some old, some nu =>
    updatesFrom 0 (min old nu) (max old nu + 1) events

/-- The external ordered list's interpretation of one ChannelUpdate, as
claim C1 reads it and as ChannelUpdater::apply_update realizes it against
the channel messages (src/embed/channel.rs lines 353-394): New appends at
the end, Update replaces at idx, Delete removes at idx. -/
def applyUpdate (msgs : List Event) : ChannelUpdate → List Event
  | .New e => msgs ++ [e]
  | .Update e idx => msgs.set idx e
  | .Delete idx => msgs.eraseIdx idx

/-- Replay a list of channel updates, in order. -/
def applyUpdates (msgs : List Event) (ups : List ChannelUpdate) : List Event :=
  ups.foldl applyUpdate msgs

/-- How one EventChange transforms the authoritative event collection
(the BTreeMap value list): create_event inserts a fresh id, edit_event and
alert_event replace the stored event with the new snapshot at the same
id, delete_event/cleanup_event remove the id (src/event/mod.rs lines
594-766). -/
def applyCollChange (coll : List Event) : EventChange → List Event
  | .Added e => coll ++ [e]
  | .Edited e => coll.map (fun x => if x.id = e.id then e else x)
  | .Alert e => coll.map (fun x => if x.id = e.id then e else x)
  | .Deleted e => coll.filter (fun x => x.id ≠ e.id)

/-- The changes the EventManager can actually emit against a given
collection: Added carries an id not yet present (create_event allocates a
fresh id via next_id), Edited and Alert carry an id that is present
(edit_event/alert_event mutate an existing entry). -/
def wfChange (coll : List Event) : EventChange → Prop
  | .Added e => ∀ x ∈ coll, x.id ≠ e.id
  | .Edited e => ∃ x ∈ coll, x.id = e.id
  | .Alert e => ∃ x ∈ coll, x.id = e.id
  | .Deleted _ => True

/-- A whole change sequence is well-formed when each change is well-formed
against the collection state it applies to. -/
def wfChanges : List Event → List EventChange → Prop
  | _, [] => True
  | coll, ch :: rest => wfChange coll ch ∧ wfChanges (applyCollChange coll ch) rest

/-- One step of the replay of claim C1: apply the change to the
synchronizer state, then replay the emitted updates against the external
ordered list. -/
def channelStep (p : ChannelEvents × List Event) (ch : EventChange) :
    ChannelEvents × List Event :=
  let r := applyEventChange p.1 ch
  (r.1, applyUpdates p.2 (createUpdates r.1.events r.2.1 r.2.2))

/-- Run a whole change sequence through channelStep. -/
def channelRun (p : ChannelEvents × List Event) (chs : List EventChange) :
    ChannelEvents × List Event :=
  chs.foldl channelStep p

/-- Fold a change sequence over the authoritative collection. -/
def applyCollChanges (coll : List Event) (chs : List EventChange) : List Event :=
  chs.foldl applyCollChange coll

/-- The ids of a collection, whose uniqueness is the collection invariant
(the source collection is a BTreeMap keyed by id). -/
def idsOf (l : List Event) : List EventId := l.map (fun e => e.id)

/-- Whether a change is the Alert variant (claim C1 quantifies over
Added/Edited/Deleted sequences only). -/
def EventChange.isAlert : EventChange → Bool
  | .Alert _ => true
  | _ => false

/-- Decidable well-formedness of a single change against a collection:
Added carries a fresh id, Edited and Alert carry a present id (what
create_event/edit_event/alert_event guarantee). -/
def wfChangeB (coll : List Event) : EventChange → Bool
  | .Added e => coll.all (fun x => x.id ≠ e.id)
  | .Edited e => coll.any (fun x => x.id = e.id)
  | .Alert e => coll.any (fun x => x.id = e.id)
  | .Deleted _ => true

/-- Decidable well-formedness of a change sequence. -/
def wfChangesB : List Event → List EventChange → Bool
  | _, [] => true
  | coll, ch :: rest => wfChangeB coll ch && wfChangesB (applyCollChange coll ch) rest

/-! ### Concrete fixtures used by witnesses and counterexamples -/

def sampleMember (uid : Nat) : EventMember := { id := uid, name := "user" }

def sampleEvent (id : EventId) (t : Int) : Event :=
  { id := id
    activity := id.activity
    datetime := t
    description := ""
    groupSize := 6
    recur := false
    creator := sampleMember 1
    confirmed := []
    alternates := []
    maybe := []
    alertMessage := none }

/-- An event whose maybe list already holds member 2 (fixture for C6). -/
def maybeEvent : Event :=
  { sampleEvent ⟨Activity.VaultOfGlass, 1⟩ 0 with maybe := [sampleMember 2] }

/-- The spec's gap example: VaultOfGlass sequence numbers 1..20 and 23..50
occupied, counters fresh (fixture for C5). -/
def gapState : EventManagerState :=
  { events := ((List.range' 1 20) ++ (List.range' 23 28)).map
      (fun n => sampleEvent ⟨Activity.VaultOfGlass, n⟩ 0)
    nextIdCounter := fun _ => 1 }

/-- Three consecutive allocations for one activity kind. -/
def allocThree (st : EventManagerState) (a : Activity) :
    Option (EventId × EventId × EventId) :=
  match nextId st a with
  | none => none
  | some (i₁, st₁) =>
    match nextId st₁ a with
    | none => none
    | some (i₂, st₂) =>
      match nextId st₂ a with
      | none => none
      | some (i₃, _) => some (i₁, i₂, i₃)

/-- A mutation closure that adds one event and returns 42 (fixture for C8). -/
def addOneMutation (evs : List Event) :
    Except String (List Event × Option EventChange × Nat) :=
  let e := sampleEvent ⟨Activity.VaultOfGlass, 1⟩ 0
  Except.ok (evs ++ [e], some (EventChange.Added e), 42)

/-- A recurring event at time 0 (fixture for C7). -/
def recurringEvent : Event :=
  { sampleEvent ⟨Activity.VaultOfGlass, 1⟩ 0 with recur := true }

/-- Manager state holding only the recurring event (fixture for C7). -/
def recurringState : EventManagerState :=
  { events := [recurringEvent], nextIdCounter := fun _ => 1 }

/-- Handler-state lookup for the scheduler witnesses: the handler state is
the current event list and lookup finds by id, as EventManager's
with_event_for_id does over its collection. -/
def witLookup (s : List Event) (id : EventId) : Option Event :=
  s.find? (fun e => e.id = id)

/-- Handler transition for the scheduler witnesses: a Cleanup removes the
event, an Alert keeps the list (EventManager's perform_action effects
projected onto the collection). -/
def witPerform (s : List Event) (a : ScheduledAction) : List Event :=
  match a.action with
  | EventAction.Alert => s
  | EventAction.Cleanup => s.filter (fun e => e.id ≠ a.id)

/-- Handler state for the scheduler witnesses: one event at time 50. -/
def witEvents : List Event := [sampleEvent ⟨Activity.VaultOfGlass, 1⟩ 50]

/-- Pending actions for the scheduler witnesses: a due fresh Alert and a
not-yet-due Cleanup. -/
def witActions : List ScheduledAction :=
  [⟨40, ⟨Activity.VaultOfGlass, 1⟩, EventAction.Alert, 50⟩,
   ⟨80, ⟨Activity.VaultOfGlass, 1⟩, EventAction.Cleanup, 50⟩]

/-- A due action whose event id does not exist in witEvents (fixture for
C10). -/
def witMissingAction : ScheduledAction :=
  ⟨40, ⟨Activity.VaultOfGlass, 2⟩, EventAction.Alert, 50⟩

/-- A two-element sorted event set (fixture for C2). -/
def witChannelEvents : List Event :=
  [sampleEvent ⟨Activity.VaultOfGlass, 1⟩ 0,
   sampleEvent ⟨Activity.VaultOfGlass, 2⟩ 10]

/-- Initial collection for the C1 replay witness. -/
def c1Events : List Event :=
  [sampleEvent ⟨Activity.VaultOfGlass, 1⟩ 50,
   sampleEvent ⟨Activity.KingsFall, 3⟩ 10]

/-- A change sequence for the C1 replay witness: an addition, an edit that
moves the event into the filter, and a deletion. -/
def c1Changes : List EventChange :=
  [EventChange.Added (sampleEvent ⟨Activity.VaultOfGlass, 2⟩ 30),
   EventChange.Edited (sampleEvent ⟨Activity.VaultOfGlass, 1⟩ 5),
   EventChange.Deleted (sampleEvent ⟨Activity.KingsFall, 3⟩ 10)]

/-- The channel filter for the C1 replay witness: events at time at most
40 (initially excluding c1Events head). -/
def c1Filt : Event → Bool := fun e => e.datetime ≤ 40

/-- Collection for the C9 alert witness. -/
def c9Events : List Event :=
  [sampleEvent ⟨Activity.VaultOfGlass, 1⟩ 10,
   sampleEvent ⟨Activity.KingsFall, 2⟩ 20]

/-- The alerted snapshot for the C9 witness: same event, alert text set. -/
def c9Alerted : Event :=
  { sampleEvent ⟨Activity.VaultOfGlass, 1⟩ 10 with
      alertMessage := some "start" }

/-! ## Theorems -/

theorem listOf_setList_same (e : Event) (kind : JoinKind) (l : List EventMember) :
    (e.setList kind l).listOf kind = l := by
  cases kind <;> rfl

theorem listOf_setList_other (e : Event) (kind k' : JoinKind) (l : List EventMember)
    (h : k' ≠ kind) : (e.setList kind l).listOf k' = e.listOf k' := by
  cases kind <;> cases k' <;> first
    | rfl
    | exact absurd rfl h

theorem leave_none_lists (e : Event) (mid : Nat) (h : e.leave mid = none) :
    ∀ k, (e.listOf k).filter (fun u => u.id ≠ mid) = e.listOf k := by
  simp only [Event.leave] at h
  split at h
  case isFalse => simp at h
  case isTrue hc =>
    have h1 := List.length_filter_le (fun u => u.id ≠ mid) e.confirmed
    have h2 := List.length_filter_le (fun u => u.id ≠ mid) e.alternates
    have h3 := List.length_filter_le (fun u => u.id ≠ mid) e.maybe
    have heach : ∀ l : List EventMember,
        (l.filter (fun u => u.id ≠ mid)).length = l.length →
        l.filter (fun u => u.id ≠ mid) = l := by
      intro l hl
      exact (List.filter_sublist l).eq_of_length hl
    intro k
    cases k
    · exact heach e.confirmed (by omega)
    · exact heach e.alternates (by omega)
    · exact heach e.maybe (by omega)

theorem leave_some_lists (e e' : Event) (mid : Nat) (h : e.leave mid = some e') :
    ∀ k, e'.listOf k = (e.listOf k).filter (fun u => u.id ≠ mid) := by
  simp only [Event.leave] at h
  split at h
  case isTrue => simp at h
  case isFalse =>
    have := Option.some.inj h
    intro k
    cases k <;> rw [← this] <;> rfl

/-- C6 counterexample: with the override disabled, member 2 is already
present in the maybe list of maybeEvent, yet join for kind Confirmed
succeeds — so "join returns AlreadyInEvent iff the member is present in
any of the three lists" and "a second join for the same member fails
regardless of which kind is requested" are both false on the code. -/
theorem join_any_list_counterexample :
    (maybeEvent.maybe.any (fun u => u.id = (sampleMember 2).id) = true) ∧
    (Event.join false maybeEvent (sampleMember 2) JoinKind.Confirmed).isSome = true := by
  constructor
  · decide
  · decide

/-- C6 (amended): with the duplicate-join override disabled, join returns
the AlreadyInEvent error iff the member is already present in the list of
the requested kind (in particular a second join of the same kind without
an intervening leave fails, while a join of a different kind succeeds and
moves the member); on success the member is removed from any other list
and appended at the end of the requested list. -/
theorem join_requested_list_spec (e : Event) (m : EventMember) (kind : JoinKind) :
    (Event.join false e m kind = none ↔
      (e.listOf kind).any (fun u => u.id = m.id) = true) ∧
    (∀ e', Event.join false e m kind = some e' →
      e'.listOf kind = e.listOf kind ++ [m] ∧
      (∀ k', k' ≠ kind → e'.listOf k' = (e.listOf k').filter (fun u => u.id ≠ m.id)) ∧
      (∀ m', m'.id = m.id → Event.join false e' m' kind = none)) := by
  have hjoin : ∀ (ev : Event) (mm : EventMember),
      Event.join false ev mm kind =
        if (ev.listOf kind).any (fun u => u.id = mm.id) then none
        else some (((ev.leave mm.id).getD ev).setList kind
          (((ev.leave mm.id).getD ev).listOf kind ++ [mm])) := by
    intro ev mm
    unfold Event.join
    simp
  constructor
  · rw [hjoin]
    by_cases hc : (e.listOf kind).any (fun u => u.id = m.id) = true
    · simp [hc]
    · simp [hc]
  · intro e' hsome
    rw [hjoin] at hsome
    by_cases hc : (e.listOf kind).any (fun u => u.id = m.id) = true
    · simp [hc] at hsome
    · simp [hc] at hsome
      have hnotin : ∀ u ∈ e.listOf kind, u.id ≠ m.id := by
        simpa [List.any_eq_true] using hc
      -- The requested list of the intermediate event equals the original
      -- requested list: leave filters out nothing from it (member absent).
      have hreq : ((e.leave m.id).getD e).listOf kind = e.listOf kind := by
        cases hlv : e.leave m.id with
        | none => rfl
        | some e₁ =>
          have := leave_some_lists e e₁ m.id hlv kind
          simp only [Option.getD_some, this]
          exact List.filter_eq_self.mpr (fun u hu => by simpa using hnotin u hu)
      have hother : ∀ k', k' ≠ kind →
          ((e.leave m.id).getD e).listOf k' =
            (e.listOf k').filter (fun u => u.id ≠ m.id) := by
        intro k' _
        cases hlv : e.leave m.id with
        | none => exact (leave_none_lists e m.id hlv k').symm
        | some e₁ => simpa using leave_some_lists e e₁ m.id hlv k'
      subst hsome
      refine ⟨?_, ?_, ?_⟩
      · rw [listOf_setList_same, hreq]
      · intro k' hk'
        rw [listOf_setList_other _ _ _ _ hk', hother k' hk']
      · intro m' hm'
        rw [hjoin]
        have hany : ((((e.leave m.id).getD e).setList kind
            (((e.leave m.id).getD e).listOf kind ++ [m])).listOf kind).any
              (fun u => u.id = m'.id) = true := by
          rw [listOf_setList_same]
          simp [hm']
        simp [hany]

/-- C8 counterexample: a mutation that succeeds (adding one event,
returning 42) followed by a failing store: the in-memory mutation is kept,
but the mutation's result value 42 is NOT returned — the call returns the
persistence error in its place, so "the mutation's result value is still
returned to the caller, with the persistence error surfaced alongside" is
false on the code. -/
theorem modify_store_failure_counterexample :
    (modifyEvent false ([] : List Event) addOneMutation).1 =
      [sampleEvent ⟨Activity.VaultOfGlass, 1⟩ 0] ∧
    (modifyEvent false ([] : List Event) addOneMutation).2 ≠ Except.ok 42 := by
  constructor
  · rfl
  · intro h
    simp [modifyEvent, addOneMutation] at h

/-- C8 (amended): for every mutation closure that succeeds and produces a
non-empty EventChange, if the subsequent store save fails the in-memory
mutation is not rolled back (the collection keeps the mutated value), but
the mutation's result value is not returned to the caller: the call
returns the persistence error in its place. -/
theorem modify_store_failure_spec {T : Type} (events events' : List Event)
    (f : List Event → Except String (List Event × Option EventChange × T))
    (c : EventChange) (ret : T) (h : f events = Except.ok (events', some c, ret)) :
    modifyEvent false events f = (events', Except.error "store error") := by
  unfold modifyEvent
  rw [h]
  simp

/-- Witness for C8's amended theorem at a concrete input. -/
theorem modify_store_failure_spec_witness :
    modifyEvent false ([] : List Event) addOneMutation =
      ([sampleEvent ⟨Activity.VaultOfGlass, 1⟩ 0], Except.error "store error") :=
  modify_store_failure_spec ([] : List Event)
    [sampleEvent ⟨Activity.VaultOfGlass, 1⟩ 0] addOneMutation
    (EventChange.Added (sampleEvent ⟨Activity.VaultOfGlass, 1⟩ 0)) 42 rfl

/-! ### Id allocation (C5) -/

theorem stepId_lt_255 {cur : Nat} (h : cur < 255) : stepId cur = cur + 1 := by
  unfold stepId
  rw [Nat.mod_eq_of_lt (by omega)]
  omega

theorem stepId_255 : stepId 255 = 1 := by decide

theorem scanIds_below (start : Nat) :
    ∀ fuel cur, 1 ≤ cur → cur < start → start ≤ 255 → start ≤ fuel + cur →
      scanIds fuel start cur = List.range' cur (start - cur) := by
  intro fuel
  induction fuel with
  | zero => intro cur _ h2 _ h4; omega
  | succ fuel ih =>
    intro cur h1 h2 h3 h4
    have hstep : stepId cur = cur + 1 := stepId_lt_255 (by omega)
    show cur :: (if stepId cur = start then [] else scanIds fuel start (stepId cur)) = _
    rw [hstep]
    by_cases hc : cur + 1 = start
    · rw [if_pos hc]
      have : start - cur = 1 := by omega
      rw [this]
      rfl
    · rw [if_neg hc]
      rw [ih (cur + 1) (by omega) (by omega) h3 (by omega)]
      have : start - cur = (start - (cur + 1)) + 1 := by omega
      rw [this]
      rfl

theorem scanIds_climb (start : Nat) (hs1 : 1 ≤ start) (hs2 : start ≤ 255) :
    ∀ fuel cur, start ≤ cur → cur ≤ 255 → 256 - cur + (start - 1) ≤ fuel →
      scanIds fuel start cur =
        List.range' cur (256 - cur) ++ List.range' 1 (start - 1) := by
  intro fuel
  induction fuel with
  | zero => intro cur _ h2 h3; omega
  | succ fuel ih =>
    intro cur h1 h2 h3
    show cur :: (if stepId cur = start then [] else scanIds fuel start (stepId cur)) = _
    rcases Nat.lt_or_ge cur 255 with hlt | hge
    · have hstep : stepId cur = cur + 1 := stepId_lt_255 hlt
      rw [hstep, if_neg (by omega)]
      rw [ih (cur + 1) (by omega) (by omega) (by omega)]
      have : 256 - cur = (256 - (cur + 1)) + 1 := by omega
      rw [this]
      rfl
    · have hcur : cur = 255 := by omega
      subst hcur
      rw [stepId_255]
      by_cases hc : 1 = start
      · rw [if_pos hc]
        have h0 : start - 1 = 0 := by omega
        rw [h0]
        rfl
      · rw [if_neg hc]
        rw [scanIds_below start fuel 1 (by omega) (by omega) hs2 (by omega)]
        rfl

theorem scanFrom_eq_claimScan : ∀ c, c < 256 → 1 ≤ c → scanFrom c = claimScan c := by
  intro c h1 h2
  unfold scanFrom claimScan
  exact scanIds_climb c h2 (by omega) 256 c (Nat.le_refl c) (by omega) (by omega)

theorem mem_claimScan {c n : Nat} (h1 : 1 ≤ c) (h2 : c ≤ 255) :
    n ∈ claimScan c ↔ (1 ≤ n ∧ n ≤ 255) := by
  simp only [claimScan, List.mem_append, List.mem_range'_1]
  omega

theorem stepId_of_le (n : Nat) (h : n ≤ 255) :
    stepId n = if n = 255 then 1 else n + 1 := by
  unfold stepId
  rcases Nat.lt_or_ge n 255 with hlt | hge
  · rw [if_neg (by omega), Nat.mod_eq_of_lt (by omega)]
    omega
  · have : n = 255 := by omega
    subst this
    rfl

/-- C5: next_id returns the first sequence number of its activity kind not
used by an existing event, found by scanning forward from the per-kind
counter through 255 and wrapping around to 1 (never producing 0); on
success the counter advances past the returned value (to idx+1, or to 1
past 255) and the events are untouched; allocation fails iff all 255
sequence numbers of that kind are occupied, and allocation state for every
other kind is unaffected; with indices 1-20 and 23-50 occupied the next
three allocations yield 21, 22, 51. -/
theorem next_id_spec (st : EventManagerState) (a : Activity)
    (hc1 : 1 ≤ st.nextIdCounter a) (hc2 : st.nextIdCounter a ≤ 255) :
    (∀ r st', nextId st a = some (r, st') →
      r.activity = a ∧ 1 ≤ r.idx ∧ r.idx ≤ 255 ∧
      (claimScan (st.nextIdCounter a)).find?
          (fun n => !containsId st.events ⟨a, n⟩) = some r.idx ∧
      st'.events = st.events ∧
      st'.nextIdCounter a = (if r.idx = 255 then 1 else r.idx + 1) ∧
      (∀ b, b ≠ a → st'.nextIdCounter b = st.nextIdCounter b)) ∧
    (nextId st a = none ↔
      ∀ n, 1 ≤ n → n ≤ 255 → containsId st.events ⟨a, n⟩ = true) ∧
    allocThree gapState Activity.VaultOfGlass =
      some (⟨Activity.VaultOfGlass, 21⟩, ⟨Activity.VaultOfGlass, 22⟩,
        ⟨Activity.VaultOfGlass, 51⟩) := by
  have hscan : scanFrom (st.nextIdCounter a) = claimScan (st.nextIdCounter a) :=
    scanFrom_eq_claimScan _ (by omega) hc1
  refine ⟨?_, ?_, ?_⟩
  · intro r st' hsome
    unfold nextId at hsome
    rw [hscan] at hsome
    cases hfind : (claimScan (st.nextIdCounter a)).find?
        (fun n => !containsId st.events ⟨a, n⟩) with
    | none => rw [hfind] at hsome; simp at hsome
    | some found =>
      rw [hfind] at hsome
      simp only [Option.some.injEq] at hsome
      injection hsome with hr hst'
      subst hr
      subst hst'
      have hmem := List.mem_of_find?_eq_some hfind
      have hbounds := (mem_claimScan hc1 hc2).mp hmem
      refine ⟨rfl, hbounds.1, hbounds.2, rfl, rfl, ?_, ?_⟩
      · show (if a = a then stepId found else st.nextIdCounter a) = _
        rw [if_pos rfl, stepId_of_le found hbounds.2]
      · intro b hb
        show (if b = a then stepId found else st.nextIdCounter b) = _
        rw [if_neg hb]
  · constructor
    · intro hnone n hn1 hn2
      unfold nextId at hnone
      rw [hscan] at hnone
      cases hfind : (claimScan (st.nextIdCounter a)).find?
          (fun n => !containsId st.events ⟨a, n⟩) with
      | some found => rw [hfind] at hnone; simp at hnone
      | none =>
        have := List.find?_eq_none.mp hfind n ((mem_claimScan hc1 hc2).mpr ⟨hn1, hn2⟩)
        simpa using this
    · intro hall
      unfold nextId
      rw [hscan]
      have hfind : (claimScan (st.nextIdCounter a)).find?
          (fun n => !containsId st.events ⟨a, n⟩) = none := by
        rw [List.find?_eq_none]
        intro n hn
        have hb := (mem_claimScan hc1 hc2).mp hn
        simp [hall n hb.1 hb.2]
      rw [hfind]
  · decide

/-- Witness for C5 at the gap-example state. -/
theorem next_id_spec_witness :
    (1 ≤ gapState.nextIdCounter Activity.VaultOfGlass ∧
      gapState.nextIdCounter Activity.VaultOfGlass ≤ 255) ∧
    allocThree gapState Activity.VaultOfGlass =
      some (⟨Activity.VaultOfGlass, 21⟩, ⟨Activity.VaultOfGlass, 22⟩,
        ⟨Activity.VaultOfGlass, 51⟩) :=
  ⟨⟨by decide, by decide⟩,
    (next_id_spec gapState Activity.VaultOfGlass (by decide) (by decide)).2.2⟩

/-! ### Recurrence advancement (C7) -/

theorem numWeeks_of_nonneg {d : Int} (h : 0 ≤ d) : numWeeks d = d / 604800 := by
  unfold numWeeks
  rw [Int.tdiv_eq_ediv h (by norm_num),
    Int.tdiv_eq_ediv (Int.ediv_nonneg h (by norm_num)) (by norm_num)]
  obtain ⟨m, rfl⟩ : ∃ m : Nat, d = (m : Int) := ⟨d.toNat, (Int.toNat_of_nonneg h).symm⟩
  have hm := Nat.div_div_eq_div_mul m 86400 7
  exact_mod_cast congrArg (fun n : Nat => (n : Int)) hm

theorem numWeeks_of_small_neg {d : Int} (h1 : -604800 < d) (h2 : d < 0) :
    numWeeks d = 0 := by
  unfold numWeeks
  have hq : Int.tdiv d 86400 = -(Int.tdiv (-d) 86400) := by
    rw [← Int.neg_tdiv, neg_neg]
  have hq0 : 0 ≤ Int.tdiv (-d) 86400 := Int.tdiv_nonneg (by omega) (by norm_num)
  have hqe : Int.tdiv (-d) 86400 = (-d) / 86400 :=
    Int.tdiv_eq_ediv (by omega) (by norm_num)
  have hq7 : Int.tdiv (-d) 86400 < 7 := by
    rw [hqe, Int.ediv_lt_iff_lt_mul (by norm_num)]
    omega
  rw [hq, Int.neg_tdiv, Int.tdiv_eq_ediv hq0 (by norm_num),
    Int.ediv_eq_zero_of_lt hq0 hq7, neg_zero]

/-- The first id-match in a collection with unique ids is the event itself. -/
theorem find?_id_of_nodup (l : List Event) (old : Event)
    (hnd : (idsOf l).Nodup) (hmem : old ∈ l) :
    l.find? (fun e => e.id = old.id) = some old := by
  induction l with
  | nil => cases hmem
  | cons x rest ih =>
    have hnd' := hnd
    rw [idsOf, List.map_cons, List.nodup_cons] at hnd'
    by_cases hx : x.id = old.id
    · cases List.mem_cons.mp hmem with
      | inl heq =>
        subst heq
        simp [List.find?_cons]
      | inr hrest =>
        exfalso
        exact hnd'.1 (hx ▸ List.mem_map_of_mem (fun e => e.id) hrest)
    · have hmem' : old ∈ rest := by
        cases List.mem_cons.mp hmem with
        | inl heq => exact absurd (congrArg Event.id heq.symm) hx
        | inr hrest => exact hrest
      have hdx : decide (x.id = old.id) = false := by simp [hx]
      simp only [List.find?_cons, hdx]
      exact ih hnd'.2 hmem'

/-- next_id succeeds as soon as one candidate in range is free. -/
theorem nextId_isSome_of_free (st : EventManagerState) (a : Activity) (n : Nat)
    (hc1 : 1 ≤ st.nextIdCounter a) (hc2 : st.nextIdCounter a ≤ 255)
    (hn1 : 1 ≤ n) (hn2 : n ≤ 255)
    (hfree : containsId st.events ⟨a, n⟩ = false) :
    ∃ r st', nextId st a = some (r, st') ∧ st'.events = st.events := by
  unfold nextId
  rw [scanFrom_eq_claimScan _ (by omega) hc1]
  cases hfind : (claimScan (st.nextIdCounter a)).find?
      (fun n => !containsId st.events ⟨a, n⟩) with
  | none =>
    exfalso
    have := List.find?_eq_none.mp hfind n ((mem_claimScan hc1 hc2).mpr ⟨hn1, hn2⟩)
    simp [hfree] at this
  | some found => exact ⟨_, _, rfl, rfl⟩

/-- C7 (amended): provided cleanup runs later than seven days before the
event's original time T (always true when the scheduler triggers it, since
cleanup fires at T plus the grace period), cleaning up a recurring event
deletes it and creates exactly one new event at T + 7k days for the
smallest positive integer k that puts the new time in the future, with
empty participant lists, recur still true, and the same
activity/description/groupSize/creator; cleaning up a non-recurring event
only deletes it.  (604800 is seven days in seconds; the reachable-state
hypotheses say the event is stored, ids are unique, the id's activity
matches the event's, and counter and sequence number are in 1..=255.) -/
theorem cleanup_recurrence (st : EventManagerState) (old : Event) (now : Int)
    (hmem : old ∈ st.events) (hnd : (idsOf st.events).Nodup)
    (hc1 : 1 ≤ st.nextIdCounter old.activity)
    (hc2 : st.nextIdCounter old.activity ≤ 255)
    (hi1 : 1 ≤ old.id.idx) (hi2 : old.id.idx ≤ 255)
    (hact : old.id.activity = old.activity)
    (htime : -604800 < now - old.datetime) :
    (old.recur = true →
      ∃ newId st' k,
        cleanupEvent now st old.id = some st' ∧
        st'.events = st.events.filter (fun e => e.id ≠ old.id) ++
          [{ id := newId
             activity := old.activity
             datetime := old.datetime + 604800 * k
             description := old.description
             groupSize := old.groupSize
             recur := true
             creator := old.creator
             confirmed := []
             alternates := []
             maybe := []
             alertMessage := none }] ∧
        1 ≤ k ∧ now < old.datetime + 604800 * k ∧
        (∀ j : Int, 1 ≤ j → j < k → old.datetime + 604800 * j ≤ now)) ∧
    (old.recur = false →
      cleanupEvent now st old.id =
        some { events := st.events.filter (fun e => e.id ≠ old.id)
               nextIdCounter := st.nextIdCounter }) := by
  have hfind := find?_id_of_nodup st.events old hnd hmem
  constructor
  · intro hrec
    unfold cleanupEvent
    rw [hfind]
    simp only [hrec, if_true]
    have hid : (⟨old.activity, old.id.idx⟩ : EventId) = old.id := by
      rw [← hact]
    have hfree : containsId (st.events.filter (fun e => e.id ≠ old.id))
        ⟨old.activity, old.id.idx⟩ = false := by
      rw [hid]
      simp only [containsId, List.any_eq_false]
      intro e he
      have := (List.mem_filter.mp he).2
      simpa using this
    obtain ⟨r, st', hsome, hev⟩ := nextId_isSome_of_free
      { st with events := st.events.filter (fun e => e.id ≠ old.id) }
      old.activity old.id.idx hc1 hc2 hi1 hi2 hfree
    rw [hsome]
    refine ⟨r, _, numWeeks (now - old.datetime) + 1, rfl, ?_, ?_, ?_, ?_⟩
    · show st'.events ++ [_] = _
      rw [hev]
      rfl
    · rcases Int.lt_or_le (now - old.datetime) 0 with hneg | hpos
      · rw [numWeeks_of_small_neg htime hneg]
        norm_num
      · rw [numWeeks_of_nonneg hpos]
        have := Int.ediv_nonneg hpos (by norm_num : (0:Int) ≤ 604800)
        omega
    · rcases Int.lt_or_le (now - old.datetime) 0 with hneg | hpos
      · rw [numWeeks_of_small_neg htime hneg]
        omega
      · rw [numWeeks_of_nonneg hpos]
        have := Int.lt_ediv_add_one_mul_self (now - old.datetime)
          (by norm_num : (0:Int) < 604800)
        nlinarith [this]
    · intro j hj1 hj2
      rcases Int.lt_or_le (now - old.datetime) 0 with hneg | hpos
      · rw [numWeeks_of_small_neg htime hneg] at hj2
        omega
      · rw [numWeeks_of_nonneg hpos] at hj2
        have hle : j ≤ (now - old.datetime) / 604800 := by omega
        have h1 : 604800 * j ≤ 604800 * ((now - old.datetime) / 604800) :=
          Int.mul_le_mul_of_nonneg_left hle (by norm_num)
        have h2 : (now - old.datetime) / 604800 * 604800 ≤ now - old.datetime :=
          Int.ediv_mul_le _ (by norm_num)
        nlinarith [h1, h2]
  · intro hrec
    unfold cleanupEvent
    rw [hfind]
    simp [hrec]

/-- C7 counterexample: cleaning up the recurring event scheduled at T = 0
with the current time 14 days earlier (now = -1209600) creates the next
occurrence at -604800, i.e. T - 7 days; the claim as stated demands
T + 7k days for the smallest positive k putting it in the future, which
here is k = 1, i.e. 604800. -/
theorem cleanup_recurrence_counterexample :
    ((cleanupEvent (-1209600) recurringState ⟨Activity.VaultOfGlass, 1⟩).map
      (fun st => st.events.map (fun e => e.datetime))) = some [-604800] ∧
    ((0 : Int) + 604800 * 1 > -1209600) ∧
    ((-604800 : Int) ≠ 0 + 604800 * 1) := by
  refine ⟨by decide, by norm_num, by norm_num⟩

/-- Witness for C7's amended theorem: cleanup of the recurring event at
T = 0 with now = 100 creates the next occurrence one week out. -/
theorem cleanup_recurrence_witness :
    ∃ newId st' k,
      cleanupEvent 100 recurringState recurringEvent.id = some st' ∧
      st'.events = recurringState.events.filter
          (fun e => e.id ≠ recurringEvent.id) ++
        [{ id := newId
           activity := recurringEvent.activity
           datetime := recurringEvent.datetime + 604800 * k
           description := recurringEvent.description
           groupSize := recurringEvent.groupSize
           recur := true
           creator := recurringEvent.creator
           confirmed := []
           alternates := []
           maybe := []
           alertMessage := none }] ∧
      1 ≤ k ∧ (100 : Int) < recurringEvent.datetime + 604800 * k ∧
      (∀ j : Int, 1 ≤ j → j < k → recurringEvent.datetime + 604800 * j ≤ 100) :=
  (cleanup_recurrence recurringState recurringEvent 100 (by decide) (by decide)
    (by decide) (by decide) (by decide) (by decide) rfl (by decide)).1 rfl

/-! ### Scheduler set maintenance (C3) -/

/-- C3: after event_changed(change) the pending-action set equals the
previous set with, for Edited and Deleted changes, every action whose
eventId equals the changed event's id removed, and then, for Added and
Edited changes, the two freshly derived actions inserted — Alert firing at
the event's scheduledTime minus the configured alert lead and Cleanup
firing at scheduledTime plus the configured cleanup grace, each recording
eventTimeAtScheduling = the event's current scheduledTime — except that a
derived action whose firing time has already been reached at the injected
time source's now() (expired: firing time <= now) is discarded and never
enqueued.  An Alert change leaves the set unchanged (the source snapshot
has no Alert arm; modelled from the spec, which prescribes behavior only
for the other three variants). -/
theorem scheduler_event_changed_spec (cfg : EventSchedulerConfig) (now : Int)
    (actions : Finset ScheduledAction) (change : EventChange)
    (a : ScheduledAction) :
    a ∈ eventChanged cfg now actions change ↔
      match change with
      | .Added e => a ∈ actions ∨
          ((a = ⟨e.datetime - cfg.alert, e.id, EventAction.Alert, e.datetime⟩ ∨
            a = ⟨e.datetime + cfg.cleanup, e.id, EventAction.Cleanup, e.datetime⟩) ∧
            now < a.actionDatetime)
      | .Edited e => (a ∈ actions ∧ a.id ≠ e.id) ∨
          ((a = ⟨e.datetime - cfg.alert, e.id, EventAction.Alert, e.datetime⟩ ∨
            a = ⟨e.datetime + cfg.cleanup, e.id, EventAction.Cleanup, e.datetime⟩) ∧
            now < a.actionDatetime)
      | .Deleted e => a ∈ actions ∧ a.id ≠ e.id
      | .Alert _ => a ∈ actions := by
  cases change with
  | Added e =>
    simp [eventChanged, EventSchedulerConfig.actionsForEvent, ScheduledAction.new,
      ScheduledAction.expired, sub_eq_add_neg, Int.not_le, and_or_right]
  | Edited e =>
    simp [eventChanged, EventSchedulerConfig.actionsForEvent, ScheduledAction.new,
      ScheduledAction.expired, sub_eq_add_neg, Int.not_le, and_or_right]
  | Deleted e =>
    simp [eventChanged]
  | Alert e =>
    simp [eventChanged]

/-! ### The scheduler loop's staleness guard (C4, C10) -/

theorem performActions_nil {σ : Type} (lookup : σ → EventId → Option Event)
    (perform : σ → ScheduledAction → σ) (now : Int) (s : σ) :
    performActions lookup perform now s [] = ⟨[], [], [], s⟩ := rfl

theorem performActions_cons {σ : Type} (lookup : σ → EventId → Option Event)
    (perform : σ → ScheduledAction → σ) (now : Int) (s : σ)
    (a : ScheduledAction) (rest : List ScheduledAction) :
    performActions lookup perform now s (a :: rest) =
      if a.expired now then
        if staleFor lookup s a then
          let r := performActions lookup perform now s rest
          ⟨r.performed, a :: r.skipped, r.remaining, r.final⟩
        else
          let r := performActions lookup perform now (perform s a) rest
          ⟨(a, s) :: r.performed, r.skipped, r.remaining, r.final⟩
      else ⟨[], [], a :: rest, s⟩ := rfl

theorem performActions_performed_mem {σ : Type}
    (lookup : σ → EventId → Option Event) (perform : σ → ScheduledAction → σ)
    (now : Int) :
    ∀ (l : List ScheduledAction) (s : σ) (p : ScheduledAction × σ),
      p ∈ (performActions lookup perform now s l).performed → p.1 ∈ l := by
  intro l
  induction l with
  | nil => intro s p hp; rw [performActions_nil] at hp; cases hp
  | cons a rest ih =>
    intro s p hp
    rw [performActions_cons] at hp
    by_cases hexp : a.expired now
    · rw [if_pos hexp] at hp
      by_cases hst : staleFor lookup s a
      · rw [if_pos hst] at hp
        exact List.mem_cons_of_mem a (ih s p hp)
      · rw [if_neg hst] at hp
        rcases List.mem_cons.mp hp with heq | hmem
        · rw [heq]
          exact List.mem_cons_self a rest
        · exact List.mem_cons_of_mem a (ih (perform s a) p hmem)
    · rw [if_neg hexp] at hp
      cases hp

theorem performActions_skipped_mem {σ : Type}
    (lookup : σ → EventId → Option Event) (perform : σ → ScheduledAction → σ)
    (now : Int) :
    ∀ (l : List ScheduledAction) (s : σ) (x : ScheduledAction),
      x ∈ (performActions lookup perform now s l).skipped → x ∈ l := by
  intro l
  induction l with
  | nil => intro s x hx; rw [performActions_nil] at hx; cases hx
  | cons a rest ih =>
    intro s x hx
    rw [performActions_cons] at hx
    by_cases hexp : a.expired now
    · rw [if_pos hexp] at hx
      by_cases hst : staleFor lookup s a
      · rw [if_pos hst] at hx
        rcases List.mem_cons.mp hx with heq | hmem
        · rw [heq]
          exact List.mem_cons_self a rest
        · exact List.mem_cons_of_mem a (ih s x hmem)
      · rw [if_neg hst] at hx
        exact List.mem_cons_of_mem a (ih (perform s a) x hx)
    · rw [if_neg hexp] at hx
      cases hx

theorem performActions_remaining_mem {σ : Type}
    (lookup : σ → EventId → Option Event) (perform : σ → ScheduledAction → σ)
    (now : Int) :
    ∀ (l : List ScheduledAction) (s : σ) (x : ScheduledAction),
      x ∈ (performActions lookup perform now s l).remaining → x ∈ l := by
  intro l
  induction l with
  | nil => intro s x hx; rw [performActions_nil] at hx; cases hx
  | cons a rest ih =>
    intro s x hx
    rw [performActions_cons] at hx
    by_cases hexp : a.expired now
    · rw [if_pos hexp] at hx
      by_cases hst : staleFor lookup s a
      · rw [if_pos hst] at hx
        exact List.mem_cons_of_mem a (ih s x hx)
      · rw [if_neg hst] at hx
        exact List.mem_cons_of_mem a (ih (perform s a) x hx)
    · rw [if_neg hexp] at hx
      exact hx

/-- C4: in one pass of the scheduler loop over the pending set (sorted by
firing time, duplicate-free, with an arbitrary handler whose state the
performed actions may themselves change — covering edits and deletes
racing with the loop), (1) perform_action is invoked only on actions whose
event, looked up at that moment, still exists with scheduledTime equal to
the recorded eventTimeAtScheduling; (2) every due action is either
performed or skipped; (3) the loop continues through all due actions and
leaves exactly the not-yet-due ones pending; (4) a skipped action is never
performed.  Skipping is not an error: the pass is total and the outcome
collects skips separately. -/
theorem perform_actions_stale_guard {σ : Type}
    (lookup : σ → EventId → Option Event) (perform : σ → ScheduledAction → σ)
    (now : Int) (s : σ) (l : List ScheduledAction)
    (hsorted : List.Sorted
      (fun x y : ScheduledAction => x.actionDatetime ≤ y.actionDatetime) l)
    (hnd : l.Nodup) :
    (∀ p ∈ (performActions lookup perform now s l).performed,
      ∃ e, lookup p.2 p.1.id = some e ∧ e.datetime = p.1.eventDatetime) ∧
    ((performActions lookup perform now s l).performed.map Prod.fst ++
        (performActions lookup perform now s l).skipped).Perm
      (l.filter (fun a => a.expired now)) ∧
    (performActions lookup perform now s l).remaining =
      l.filter (fun a => !a.expired now) ∧
    (∀ x ∈ (performActions lookup perform now s l).skipped,
      x ∉ (performActions lookup perform now s l).performed.map Prod.fst) := by
  induction l generalizing s with
  | nil => simp [performActions_nil]
  | cons a rest ih =>
    have hpair := List.pairwise_cons.mp hsorted
    have hndc := List.nodup_cons.mp hnd
    by_cases hexp : a.expired now
    · by_cases hst : staleFor lookup s a
      · -- due but stale: skipped, loop continues on the rest
        obtain ⟨ih1, ih2, ih3, ih4⟩ := ih s hpair.2 hndc.2
        rw [performActions_cons, if_pos hexp, if_pos hst]
        refine ⟨ih1, ?_, ?_, ?_⟩
        · show ((performActions lookup perform now s rest).performed.map Prod.fst ++
            (a :: (performActions lookup perform now s rest).skipped)).Perm _
          rw [List.filter_cons, if_pos hexp]
          exact List.perm_middle.trans (ih2.cons a)
        · show (performActions lookup perform now s rest).remaining = _
          rw [List.filter_cons, if_neg (by simp [hexp]), ih3]
        · intro x hx
          rcases List.mem_cons.mp hx with heq | hmem
          · subst heq
            intro hcon
            rcases List.mem_map.mp hcon with ⟨p, hp, hpeq⟩
            exact hndc.1 (hpeq ▸ performActions_performed_mem lookup perform now rest s p hp)
          · exact ih4 x hmem
      · -- due and fresh: performed with the handler state of this moment
        obtain ⟨ih1, ih2, ih3, ih4⟩ := ih (perform s a) hpair.2 hndc.2
        rw [performActions_cons, if_pos hexp, if_neg hst]
        refine ⟨?_, ?_, ?_, ?_⟩
        · intro p hp
          rcases List.mem_cons.mp hp with heq | hmem
          · subst heq
            cases hl : lookup s a.id with
            | none => rw [staleFor, hl] at hst; simp at hst
            | some e =>
              refine ⟨e, rfl, ?_⟩
              rw [staleFor, hl] at hst
              simpa using hst
          · exact ih1 p hmem
        · show (((a, s) :: (performActions lookup perform now (perform s a) rest).performed).map
              Prod.fst ++ (performActions lookup perform now (perform s a) rest).skipped).Perm _
          rw [List.filter_cons, if_pos hexp, List.map_cons]
          exact ih2.cons a
        · show (performActions lookup perform now (perform s a) rest).remaining = _
          rw [List.filter_cons, if_neg (by simp [hexp]), ih3]
        · intro x hx
          have hxrest := performActions_skipped_mem lookup perform now rest (perform s a) x hx
          intro hcon
          dsimp only [List.map_cons] at hcon
          rcases List.mem_cons.mp hcon with heq | hmem
          · exact hndc.1 (heq ▸ hxrest)
          · exact ih4 x hx hmem
    · -- the first action is not due: everything still pending
      rw [performActions_cons, if_neg hexp]
      dsimp only
      have hexpf : a.expired now = false := by
        cases hb : a.expired now
        · rfl
        · exact absurd hb hexp
      have hnone : ∀ x ∈ rest, x.expired now = false := by
        intro x hx
        have hle := hpair.1 x hx
        have hna : ¬ a.actionDatetime ≤ now := by
          simpa [ScheduledAction.expired] using hexpf
        simp only [ScheduledAction.expired, decide_eq_false_iff_not]
        omega
      refine ⟨by simp, ?_, ?_, by simp⟩
      · show ([] ++ []).Perm _
        have hfil : (a :: rest).filter (fun a => a.expired now) = [] := by
          rw [List.filter_eq_nil_iff]
          intro x hx
          rcases List.mem_cons.mp hx with heq | hmem
          · subst heq; simp [hexpf]
          · simp [hnone x hmem]
        rw [hfil]
        exact List.Perm.refl _
      · show a :: rest = _
        rw [List.filter_cons, if_pos (by simp [hexpf])]
        congr 1
        rw [eq_comm, List.filter_eq_self]
        intro x hx
        simp [hnone x hx]

/-- Witness for C4 at a concrete handler and action list: one due fresh
Alert, one not-yet-due Cleanup. -/
theorem perform_actions_stale_guard_witness :
    (∀ p ∈ (performActions witLookup witPerform 60 witEvents witActions).performed,
      ∃ e, witLookup p.2 p.1.id = some e ∧ e.datetime = p.1.eventDatetime) ∧
    ((performActions witLookup witPerform 60 witEvents witActions).performed.map Prod.fst ++
        (performActions witLookup witPerform 60 witEvents witActions).skipped).Perm
      (witActions.filter (fun a => a.expired 60)) ∧
    (performActions witLookup witPerform 60 witEvents witActions).remaining =
      witActions.filter (fun a => !a.expired 60) ∧
    (∀ x ∈ (performActions witLookup witPerform 60 witEvents witActions).skipped,
      x ∉ (performActions witLookup witPerform 60 witEvents witActions).performed.map Prod.fst) :=
  perform_actions_stale_guard witLookup witPerform 60 witEvents witActions
    (by simp [witActions, List.sorted_cons]) (by decide)

/-- C10: a due action whose event id no longer exists in the handler's
lookup is treated exactly like a stale one — the pass's outcome equals the
outcome on the remaining actions with this action recorded as skipped
(perform_action is never invoked for it and the handler state passed on is
unchanged), it does not remain pending, and processing continues without
error. -/
theorem perform_actions_missing_event {σ : Type}
    (lookup : σ → EventId → Option Event) (perform : σ → ScheduledAction → σ)
    (now : Int) (s : σ) (a : ScheduledAction) (rest : List ScheduledAction)
    (hexp : a.expired now = true) (hmissing : lookup s a.id = none)
    (hnotin : a ∉ rest) :
    performActions lookup perform now s (a :: rest) =
      ⟨(performActions lookup perform now s rest).performed,
       a :: (performActions lookup perform now s rest).skipped,
       (performActions lookup perform now s rest).remaining,
       (performActions lookup perform now s rest).final⟩ ∧
    a ∉ (performActions lookup perform now s (a :: rest)).performed.map Prod.fst ∧
    a ∉ (performActions lookup perform now s (a :: rest)).remaining := by
  have hst : staleFor lookup s a = true := by
    rw [staleFor, hmissing]
  have hmain : performActions lookup perform now s (a :: rest) =
      ⟨(performActions lookup perform now s rest).performed,
       a :: (performActions lookup perform now s rest).skipped,
       (performActions lookup perform now s rest).remaining,
       (performActions lookup perform now s rest).final⟩ := by
    rw [performActions_cons, if_pos hexp, if_pos hst]
  refine ⟨hmain, ?_, ?_⟩
  · rw [hmain]
    intro hcon
    rcases List.mem_map.mp hcon with ⟨p, hp, hpeq⟩
    exact hnotin (hpeq ▸ performActions_performed_mem lookup perform now rest s p hp)
  · rw [hmain]
    intro hcon
    exact hnotin (performActions_remaining_mem lookup perform now rest s a hcon)

/-- Witness for C10: the due witMissingAction's id is absent from
witEvents, so it is skipped and processing continues on witActions. -/
theorem perform_actions_missing_event_witness :
    (witMissingAction.expired 60 = true ∧
      witLookup witEvents witMissingAction.id = none ∧
      witMissingAction ∉ witActions) ∧
    performActions witLookup witPerform 60 witEvents (witMissingAction :: witActions) =
      ⟨(performActions witLookup witPerform 60 witEvents witActions).performed,
       witMissingAction :: (performActions witLookup witPerform 60 witEvents witActions).skipped,
       (performActions witLookup witPerform 60 witEvents witActions).remaining,
       (performActions witLookup witPerform 60 witEvents witActions).final⟩ :=
  ⟨⟨by decide, by decide, by decide⟩,
    (perform_actions_missing_event witLookup witPerform 60 witEvents
      witMissingAction witActions (by decide) (by decide) (by decide)).1⟩

/-! ### Diff operation shape (C2) -/

theorem updatesFrom_of_hi_le : ∀ (l : List Event) (i lo hi : Nat), hi ≤ i →
    updatesFrom i lo hi l = [] := by
  intro l
  induction l with
  | nil => intro i lo hi h; rfl
  | cons e rest ih =>
    intro i lo hi h
    show (if lo ≤ i ∧ i < hi then [ChannelUpdate.Update e i] else []) ++ _ = _
    rw [if_neg (by omega), List.nil_append]
    exact ih (i + 1) lo hi (by omega)

theorem updatesFrom_lo_le : ∀ (l : List Event) (i lo hi : Nat), lo ≤ i →
    updatesFrom i lo hi l = updatesFrom i i hi l := by
  intro l
  induction l with
  | nil => intro i lo hi h; rfl
  | cons e rest ih =>
    intro i lo hi h
    show (if lo ≤ i ∧ i < hi then [ChannelUpdate.Update e i] else []) ++ _ =
      (if i ≤ i ∧ i < hi then [ChannelUpdate.Update e i] else []) ++ _
    by_cases hih : i < hi
    · rw [if_pos ⟨h, hih⟩, if_pos ⟨Nat.le_refl i, hih⟩,
        ih (i + 1) lo hi (by omega), ih (i + 1) i hi (by omega)]
    · rw [if_neg (fun hx => hih hx.2), if_neg (fun hx => hih hx.2),
        ih (i + 1) lo hi (by omega), ih (i + 1) i hi (by omega)]

theorem updatesFrom_closed : ∀ (l : List Event) (i lo hi : Nat), i ≤ lo →
    updatesFrom i lo hi l =
      (((l.drop (lo - i)).take (hi - lo)).enumFrom lo).map
        (fun p => ChannelUpdate.Update p.2 p.1) := by
  intro l
  induction l with
  | nil => intro i lo hi h; simp [updatesFrom]
  | cons e rest ih =>
    intro i lo hi h
    show (if lo ≤ i ∧ i < hi then [ChannelUpdate.Update e i] else []) ++ _ = _
    rcases Nat.lt_or_ge i lo with hlt | hge
    · have hdrop : (e :: rest).drop (lo - i) = rest.drop (lo - (i + 1)) := by
        have hsub : lo - i = (lo - (i + 1)) + 1 := by omega
        rw [hsub, List.drop_succ_cons]
      rw [if_neg (by omega), List.nil_append, ih (i + 1) lo hi (by omega), hdrop]
    · have hieq : i = lo := by omega
      subst hieq
      rcases Nat.lt_or_ge i hi with hlth | hgeh
      · rw [if_pos ⟨Nat.le_refl i, hlth⟩]
        rw [updatesFrom_lo_le rest (i + 1) i hi (by omega),
          ih (i + 1) (i + 1) hi (by omega)]
        have htake : ((e :: rest).drop (i - i)).take (hi - i) =
            e :: (rest.take (hi - (i + 1))) := by
          rw [Nat.sub_self, List.drop_zero]
          have hsub : hi - i = (hi - (i + 1)) + 1 := by omega
          rw [hsub]
          rfl
        rw [htake, Nat.sub_self, List.drop_zero]
        rfl
      · rw [if_neg (by omega), List.nil_append,
          updatesFrom_of_hi_le rest (i + 1) i hi (by omega)]
        have hsub : hi - i = 0 := by omega
        rw [hsub]
        rfl

theorem Event.ordLe_refl (e : Event) : Event.ordLe e e := Or.inr rfl

theorem sorted_le_getLast : ∀ (l : List Event),
    List.Sorted Event.ordLe l → (h : l ≠ []) → ∀ x ∈ l, Event.ordLe x (l.getLast h) := by
  intro l
  induction l with
  | nil => intro _ h; exact absurd rfl h
  | cons a t ih =>
    intro hs h x hx
    cases t with
    | nil =>
      rcases List.mem_cons.mp hx with heq | hmem
      · subst heq
        exact Event.ordLe_refl x
      · cases hmem
    | cons b t' =>
      rw [List.getLast_cons (by simp)]
      have hpair := List.pairwise_cons.mp hs
      rcases List.mem_cons.mp hx with heq | hmem
      · subst heq
        exact hpair.1 _ (List.getLast_mem (by simp))
      · exact ih hpair.2 (by simp) x hmem

/-- C2: for the sorted event set held by ChannelEvents (of length len),
create_updates emits exactly: no operations for (None, None); the single
operation Delete(old) for (Some old, None); for (None, Some new) an
Update{events[idx], idx} for every index idx in [new, len-2] in increasing
order followed by exactly one New carrying the last (greatest) event of
the set; and for (Some old, Some new) an Update{events[idx], idx} for
every index idx in [min(old,new), max(old,new)] in increasing order and
nothing else. -/
theorem create_updates_shape (events : List Event)
    (hsorted : List.Sorted Event.ordLe events) :
    (createUpdates events none none = []) ∧
    (∀ old, createUpdates events (some old) none = [ChannelUpdate.Delete old]) ∧
    (∀ nu, nu < events.length →
      ∃ last, events.getLast? = some last ∧
        (∀ x ∈ events, Event.ordLe x last) ∧
        createUpdates events none (some nu) =
          (((events.drop nu).take (events.length - 1 - nu)).enumFrom nu).map
            (fun p => ChannelUpdate.Update p.2 p.1) ++ [ChannelUpdate.New last]) ∧
    (∀ old nu, old < events.length → nu < events.length →
      createUpdates events (some old) (some nu) =
        (((events.drop (min old nu)).take (max old nu + 1 - min old nu)).enumFrom
          (min old nu)).map (fun p => ChannelUpdate.Update p.2 p.1)) := by
  refine ⟨rfl, fun old => rfl, ?_, ?_⟩
  · intro nu hnu
    have hne : events ≠ [] := List.ne_nil_of_length_pos (by omega)
    refine ⟨events.getLast hne, List.getLast?_eq_getLast events hne, ?_, ?_⟩
    · exact sorted_le_getLast events hsorted hne
    · show updatesFrom 0 nu (events.length - 1) events ++ _ = _
      rw [List.getLast?_eq_getLast events hne]
      rw [updatesFrom_closed events 0 nu (events.length - 1) (by omega)]
      rw [Nat.sub_zero]
  · intro old nu h1 h2
    show updatesFrom 0 (min old nu) (max old nu + 1) events = _
    rw [updatesFrom_closed events 0 (min old nu) (max old nu + 1) (by omega)]
    rw [Nat.sub_zero]

theorem witChannelEvents_sorted : List.Sorted Event.ordLe witChannelEvents := by
  simp only [witChannelEvents, List.sorted_cons, List.mem_singleton,
    List.not_mem_nil, List.sorted_nil]
  refine ⟨fun b hb => ?_, by simp⟩
  subst hb
  exact Or.inl (Or.inl (by norm_num [sampleEvent]))

/-- Witness for C2 at a concrete two-element sorted set. -/
theorem create_updates_shape_witness :
    (createUpdates witChannelEvents none none = []) ∧
    (createUpdates witChannelEvents (some 0) none = [ChannelUpdate.Delete 0]) ∧
    (∃ last, witChannelEvents.getLast? = some last ∧
      (∀ x ∈ witChannelEvents, Event.ordLe x last) ∧
      createUpdates witChannelEvents none (some 0) =
        (((witChannelEvents.drop 0).take (witChannelEvents.length - 1 - 0)).enumFrom 0).map
          (fun p => ChannelUpdate.Update p.2 p.1) ++ [ChannelUpdate.New last]) :=
  ⟨(create_updates_shape witChannelEvents witChannelEvents_sorted).1,
   (create_updates_shape witChannelEvents witChannelEvents_sorted).2.1 0,
   (create_updates_shape witChannelEvents witChannelEvents_sorted).2.2.1 0 (by decide)⟩

/-! ### The Event order: basic facts -/

theorem Activity.toNat_inj : ∀ a b : Activity, a.toNat = b.toNat → a = b := by
  decide

theorem EventId.ext_of (i j : EventId) (h1 : i.activity = j.activity)
    (h2 : i.idx = j.idx) : i = j := by
  cases i
  cases j
  cases h1
  cases h2
  rfl

theorem ordKey_eq_iff {a b : Event} :
    Event.ordKey a = Event.ordKey b ↔
      (a.datetime = b.datetime ∧ a.id.activity.toNat = b.id.activity.toNat ∧
        a.id.idx = b.id.idx) := by
  unfold Event.ordKey
  simp [Prod.ext_iff]

theorem ordKey_eq_id_eq {a b : Event} (h : Event.ordKey a = Event.ordKey b) :
    a.id = b.id := by
  obtain ⟨_, h2, h3⟩ := ordKey_eq_iff.mp h
  exact EventId.ext_of _ _ (Activity.toNat_inj _ _ h2) h3

theorem ordLt_of_ordLe_of_ne {a b : Event} (h : Event.ordLe a b)
    (hne : a.id ≠ b.id) : Event.ordLt a b := by
  rcases h with h | h
  · exact h
  · exact absurd (ordKey_eq_id_eq h) hne

instance : IsTrans Event Event.ordLe := by
  constructor
  intro a b c h1 h2
  simp only [Event.ordLe, Event.ordLt, ordKey_eq_iff] at *
  omega

instance : IsTotal Event Event.ordLe := by
  constructor
  intro a b
  simp only [Event.ordLe, Event.ordLt, ordKey_eq_iff]
  omega

instance : IsAntisymm Event Event.ordLt := by
  constructor
  intro a b h1 h2
  exfalso
  unfold Event.ordLt at *
  omega

theorem sortEvents_perm (l : List Event) : (sortEvents l).Perm l :=
  List.perm_insertionSort Event.ordLe l

theorem sortEvents_sorted (l : List Event) : List.Sorted Event.ordLe (sortEvents l) :=
  List.sorted_insertionSort Event.ordLe l

theorem idsOf_perm {l₁ l₂ : List Event} (h : l₁.Perm l₂) :
    (idsOf l₁).Perm (idsOf l₂) := by
  unfold idsOf
  exact h.map (fun e => e.id)

theorem sorted_lt_of_nodup {l : List Event} (hs : List.Sorted Event.ordLe l)
    (hnd : (idsOf l).Nodup) : List.Sorted Event.ordLt l := by
  have hids : l.Pairwise (fun x y : Event => x.id ≠ y.id) := by
    rw [idsOf] at hnd
    exact List.pairwise_map.mp hnd
  exact (hs.and hids).imp (fun h => ordLt_of_ordLe_of_ne h.1 h.2)

theorem sortEvents_eq_of_perm {l₁ l₂ : List Event} (hp : l₁.Perm l₂)
    (hnd : (idsOf l₁).Nodup) : sortEvents l₁ = sortEvents l₂ := by
  have hnd₁ : (idsOf (sortEvents l₁)).Nodup :=
    ((idsOf_perm (sortEvents_perm l₁)).nodup_iff).mpr hnd
  have hnd₂ : (idsOf (sortEvents l₂)).Nodup :=
    ((idsOf_perm (sortEvents_perm l₂)).nodup_iff).mpr
      (((idsOf_perm hp).nodup_iff).mp hnd)
  exact List.eq_of_perm_of_sorted
    ((sortEvents_perm l₁).trans (hp.trans (sortEvents_perm l₂).symm))
    (sorted_lt_of_nodup (sortEvents_sorted l₁) hnd₁)
    (sorted_lt_of_nodup (sortEvents_sorted l₂) hnd₂)

theorem idsOf_sublist {l₁ l₂ : List Event} (h : l₁.Sublist l₂) :
    (idsOf l₁).Sublist (idsOf l₂) := by
  unfold idsOf
  exact h.map (fun e => e.id)

theorem sortEvents_filter_comm (q : Event → Bool) (l : List Event)
    (hnd : (idsOf l).Nodup) :
    sortEvents (l.filter q) = (sortEvents l).filter q := by
  have hndf : (idsOf (l.filter q)).Nodup :=
    (idsOf_sublist (List.filter_sublist l)).nodup hnd
  have hnds : (idsOf (sortEvents l)).Nodup :=
    ((idsOf_perm (sortEvents_perm l)).nodup_iff).mpr hnd
  have hndfs : (idsOf ((sortEvents l).filter q)).Nodup :=
    (idsOf_sublist (List.filter_sublist (sortEvents l))).nodup hnds
  refine List.eq_of_perm_of_sorted
    ((sortEvents_perm (l.filter q)).trans ((sortEvents_perm l).symm.filter q))
    (sorted_lt_of_nodup (sortEvents_sorted (l.filter q))
      (((idsOf_perm (sortEvents_perm (l.filter q))).nodup_iff).mpr hndf))
    (sorted_lt_of_nodup ((sortEvents_sorted l).filter q) hndfs)

/-! ### findIdx? and eraseIdx helpers -/

theorem findIdx?_append_middle {α : Type} (p : α → Bool) :
    ∀ (A : List α) (x : α) (B : List α) (i₀ : Nat),
      (∀ y ∈ A, p y = false) → p x = true →
      List.findIdx? p (A ++ x :: B) i₀ = some (i₀ + A.length) := by
  intro A
  induction A with
  | nil =>
    intro x B i₀ _ hx
    rw [List.nil_append, List.findIdx?_cons, if_pos hx]
    rfl
  | cons a A' ih =>
    intro x B i₀ hA hx
    rw [List.cons_append, List.findIdx?_cons,
      if_neg (by rw [hA a (List.mem_cons_self a A')]; simp),
      ih x B (i₀ + 1) (fun y hy => hA y (List.mem_cons_of_mem a hy)) hx]
    congr 1
    simp [List.length_cons]
    omega

theorem findIdx?_some_decomp {α : Type} (p : α → Bool) :
    ∀ (l : List α) (i i₀ : Nat), List.findIdx? p l i₀ = some i →
      ∃ A x B, l = A ++ x :: B ∧ i = i₀ + A.length ∧ p x = true ∧
        ∀ y ∈ A, p y = false := by
  intro l
  induction l with
  | nil => intro i i₀ h; rw [List.findIdx?_nil] at h; cases h
  | cons a l' ih =>
    intro i i₀ h
    rw [List.findIdx?_cons] at h
    by_cases hp : p a = true
    · rw [if_pos hp] at h
      refine ⟨[], a, l', rfl, ?_, hp, by simp⟩
      simpa using (Option.some.inj h).symm
    · rw [if_neg hp] at h
      obtain ⟨A, x, B, hl, hi, hx, hA⟩ := ih i (i₀ + 1) h
      refine ⟨a :: A, x, B, by rw [hl]; rfl, by simp [hi]; omega, hx, ?_⟩
      intro y hy
      rcases List.mem_cons.mp hy with heq | hmem
      · subst heq
        cases hb : p y
        · rfl
        · exact absurd hb hp
      · exact hA y hmem

theorem eraseIdx_append_middle {α : Type} :
    ∀ (A : List α) (x : α) (B : List α),
      (A ++ x :: B).eraseIdx A.length = A ++ B := by
  intro A
  induction A with
  | nil => intro x B; rfl
  | cons a A' ih =>
    intro x B
    show (a :: (A' ++ x :: B)).eraseIdx (A'.length + 1) = a :: (A' ++ B)
    rw [List.eraseIdx_cons_succ, ih x B]

/-! ### Replay lemmas: applying emitted updates to the external list -/

theorem applyUpdates_append (msgs : List Event) (u₁ u₂ : List ChannelUpdate) :
    applyUpdates msgs (u₁ ++ u₂) = applyUpdates (applyUpdates msgs u₁) u₂ := by
  show List.foldl applyUpdate msgs (u₁ ++ u₂) = _
  rw [List.foldl_append]
  rfl

theorem getElem?_append_cons_lt {α : Type} (P Q : List α) (y : α) (j : Nat)
    (hj : j < P.length) : (P ++ y :: Q)[j]? = (P ++ Q)[j]? := by
  rw [List.getElem?_append, if_pos hj, List.getElem?_append, if_pos hj]

theorem getElem?_append_cons_gt {α : Type} (P Q : List α) (y : α) (j : Nat)
    (hj : P.length < j) : (P ++ y :: Q)[j]? = (P ++ Q)[j - 1]? := by
  rw [List.getElem?_append, if_neg (by omega), List.getElem?_append,
    if_neg (by omega)]
  have h1 : j - P.length = (j - 1 - P.length) + 1 := by omega
  rw [h1, List.getElem?_cons_succ]

theorem applyUpdates_slice_length :
    ∀ (X : List Event) (lo : Nat) (msgs : List Event),
      (applyUpdates msgs ((List.enumFrom lo X).map
        (fun p => ChannelUpdate.Update p.2 p.1))).length = msgs.length := by
  intro X
  induction X with
  | nil => intro lo msgs; rfl
  | cons x X' ih =>
    intro lo msgs
    show (applyUpdates (msgs.set lo x) _).length = _
    rw [ih (lo + 1) (msgs.set lo x), List.length_set]

theorem applyUpdates_slice_getElem? :
    ∀ (X : List Event) (lo : Nat) (msgs : List Event) (j : Nat),
      (applyUpdates msgs ((List.enumFrom lo X).map
        (fun p => ChannelUpdate.Update p.2 p.1)))[j]? =
      if lo ≤ j ∧ j < lo + X.length ∧ j < msgs.length then X[j - lo]?
      else msgs[j]? := by
  intro X
  induction X with
  | nil =>
    intro lo msgs j
    rw [if_neg (by simp only [List.length_nil]; omega)]
    rfl
  | cons x X' ih =>
    intro lo msgs j
    show (applyUpdates (msgs.set lo x) _)[j]? = _
    rw [ih (lo + 1) (msgs.set lo x) j, List.length_set]
    simp only [List.length_cons]
    by_cases h1 : j < msgs.length
    · by_cases h2 : j = lo
      · subst h2
        rw [if_neg (by omega), if_pos ⟨Nat.le_refl j, by omega, h1⟩,
          List.getElem?_set, if_pos rfl, if_pos h1, Nat.sub_self,
          List.getElem?_cons_zero]
      · by_cases h3 : lo + 1 ≤ j ∧ j < lo + 1 + X'.length
        · rw [if_pos ⟨h3.1, h3.2, h1⟩, if_pos ⟨by omega, by omega, h1⟩]
          have h4 : j - lo = (j - (lo + 1)) + 1 := by omega
          rw [h4, List.getElem?_cons_succ]
        · rw [if_neg (by omega), if_neg (by omega),
            List.getElem?_set, if_neg (fun hc => h2 hc.symm)]
    · rw [if_neg (by omega), if_neg (by omega), List.getElem?_set]
      by_cases h2 : lo = j
      · rw [if_pos h2, if_neg (by omega), eq_comm,
          List.getElem?_eq_none (by omega)]
      · rw [if_neg h2]

theorem applyUpdates_single_new (msgs : List Event) (e : Event) :
    applyUpdates msgs [ChannelUpdate.New e] = msgs ++ [e] := rfl

/-- Replaying the updates for a pure insert at position A.length turns the
external list A ++ B into A ++ e :: B. -/
theorem replay_insert (A B : List Event) (e : Event) :
    applyUpdates (A ++ B) (createUpdates (A ++ e :: B) none (some A.length)) =
      A ++ e :: B := by
  have hBne : (e :: B) ≠ [] := by simp
  have hlast : (A ++ e :: B).getLast? = some ((e :: B).getLast hBne) := by
    rw [List.getLast?_append, List.getLast?_eq_getLast (e :: B) hBne]
    rfl
  have hlen : (A ++ e :: B).length = A.length + B.length + 1 := by
    simp only [List.length_append, List.length_cons]
    omega
  show applyUpdates (A ++ B)
    (updatesFrom 0 A.length ((A ++ e :: B).length - 1) (A ++ e :: B) ++
      (match (A ++ e :: B).getLast? with
       | some x => [ChannelUpdate.New x]
       | none => [])) = A ++ e :: B
  rw [hlast]
  show applyUpdates (A ++ B)
    (updatesFrom 0 A.length ((A ++ e :: B).length - 1) (A ++ e :: B) ++
      [ChannelUpdate.New ((e :: B).getLast hBne)]) = A ++ e :: B
  rw [updatesFrom_closed (A ++ e :: B) 0 A.length ((A ++ e :: B).length - 1)
      (Nat.zero_le _), Nat.sub_zero, List.drop_left A (e :: B)]
  have hsub : (A ++ e :: B).length - 1 - A.length = B.length := by omega
  rw [hsub, applyUpdates_append, applyUpdates_single_new]
  have hR1 : (applyUpdates (A ++ B) ((List.enumFrom A.length
      ((e :: B).take B.length)).map (fun p => ChannelUpdate.Update p.2 p.1))).length
      = A.length + B.length := by
    rw [applyUpdates_slice_length, List.length_append]
  apply List.ext_getElem?
  intro j
  rw [List.getElem?_append, hR1, applyUpdates_slice_getElem?]
  have htk : ((e :: B).take B.length).length = B.length := by
    simp only [List.length_take, List.length_cons]
    omega
  rw [htk, List.length_append]
  by_cases h1 : j < A.length
  · rw [if_pos (by omega), if_neg (by omega),
      getElem?_append_cons_lt A B e j h1]
  · by_cases h2 : j < A.length + B.length
    · rw [if_pos (by omega), if_pos ⟨by omega, by omega, by omega⟩,
        List.getElem?_take, if_pos (by omega), List.getElem?_append,
        if_neg (by omega)]
    · by_cases h3 : j = A.length + B.length
      · rw [if_neg (by omega)]
        subst h3
        rw [Nat.sub_self, List.getElem?_cons_zero,
          show A.length + B.length = (A ++ e :: B).length - 1 from by omega,
          ← List.getLast?_eq_getElem?, hlast]
      · rw [if_neg (by omega)]
        have h4 : j - (A.length + B.length) = (j - (A.length + B.length) - 1) + 1 := by
          omega
        rw [h4, List.getElem?_cons_succ, List.getElem?_nil, eq_comm,
          List.getElem?_eq_none (by omega)]

/-- Replaying the updates for a remove-at-PRE.length / insert-at-A.length
replacement turns the external list PRE ++ x :: POST into A ++ e :: B,
where PRE ++ POST = A ++ B is the common list without the replaced
element. -/
theorem replay_update (PRE POST A B : List Event) (x e : Event)
    (hEq : PRE ++ POST = A ++ B) :
    applyUpdates (PRE ++ x :: POST)
      (createUpdates (A ++ e :: B) (some PRE.length) (some A.length)) =
      A ++ e :: B := by
  have hlenEq : PRE.length + POST.length = A.length + B.length := by
    have hc := congrArg List.length hEq
    simpa using hc
  show applyUpdates (PRE ++ x :: POST)
    (updatesFrom 0 (min PRE.length A.length) (max PRE.length A.length + 1)
      (A ++ e :: B)) = A ++ e :: B
  rw [updatesFrom_closed (A ++ e :: B) 0 (min PRE.length A.length)
    (max PRE.length A.length + 1) (Nat.zero_le _), Nat.sub_zero]
  have hlenT : (A ++ e :: B).length = A.length + B.length + 1 := by
    simp only [List.length_append, List.length_cons]
    omega
  have hlenM : (PRE ++ x :: POST).length = A.length + B.length + 1 := by
    simp only [List.length_append, List.length_cons]
    omega
  have htk : (((A ++ e :: B).drop (min PRE.length A.length)).take
      (max PRE.length A.length + 1 - min PRE.length A.length)).length
      = max PRE.length A.length + 1 - min PRE.length A.length := by
    rw [List.length_take, List.length_drop, hlenT]
    omega
  apply List.ext_getElem?
  intro j
  rw [applyUpdates_slice_getElem?, htk, hlenM]
  by_cases hw : min PRE.length A.length ≤ j ∧ j ≤ max PRE.length A.length ∧
      j < A.length + B.length + 1
  · rw [if_pos ⟨hw.1, by omega, by omega⟩, List.getElem?_take,
      if_pos (by omega), List.getElem?_drop,
      show min PRE.length A.length + (j - min PRE.length A.length) = j from by omega]
  · rw [if_neg (by omega)]
    by_cases h1 : j < A.length + B.length + 1
    · by_cases h2 : j < min PRE.length A.length
      · rw [getElem?_append_cons_lt PRE POST x j (by omega),
          getElem?_append_cons_lt A B e j (by omega), hEq]
      · rw [getElem?_append_cons_gt PRE POST x j (by omega),
          getElem?_append_cons_gt A B e j (by omega), hEq]
    · rw [List.getElem?_eq_none (by omega), List.getElem?_eq_none (by omega)]

/-! ### View-phase lemmas: removal, insertion, replacement -/

theorem viewOf_ids_nodup (filt : Event → Bool) (coll : List Event)
    (hnd : (idsOf coll).Nodup) : (idsOf (viewOf filt coll)).Nodup :=
  ((idsOf_perm (sortEvents_perm (coll.filter filt))).nodup_iff).mpr
    ((idsOf_sublist (List.filter_sublist coll)).nodup hnd)

theorem mem_viewOf {filt : Event → Bool} {coll : List Event} {z : Event} :
    z ∈ viewOf filt coll ↔ (z ∈ coll ∧ filt z = true) := by
  unfold viewOf
  rw [(sortEvents_perm (coll.filter filt)).mem_iff, List.mem_filter]

/-- Removal when no view entry has the id: the view is unchanged by
filtering the id out of the collection. -/
theorem remove_not_found (filt : Event → Bool) (coll : List Event) (eid : EventId)
    (hfi : (viewOf filt coll).findIdx? (fun o => o.id = eid) = none) :
    viewOf filt (coll.filter (fun z => z.id ≠ eid)) = viewOf filt coll := by
  have hno : ∀ z ∈ coll, filt z = true → z.id ≠ eid := by
    intro z hz hfz
    have hmem : z ∈ viewOf filt coll := mem_viewOf.mpr ⟨hz, hfz⟩
    have := List.findIdx?_eq_none_iff.mp hfi z hmem
    simpa using this
  unfold viewOf
  congr 1
  rw [List.filter_filter]
  apply List.filter_congr
  intro z hz
  by_cases hfz : filt z = true
  · simp [hfz, hno z hz hfz]
  · simp only [Bool.eq_false_iff, ne_eq] at hfz
    simp [Bool.eq_false_iff.mpr hfz]

/-- Removal when the view holds an entry with the id: the view decomposes
around it, erasing its index yields the filtered view. -/
theorem remove_found (filt : Event → Bool) (coll : List Event) (eid : EventId)
    (i : Nat) (hnd : (idsOf coll).Nodup)
    (hfi : (viewOf filt coll).findIdx? (fun o => o.id = eid) = some i) :
    ∃ A y B, viewOf filt coll = A ++ y :: B ∧ i = A.length ∧ y.id = eid ∧
      (viewOf filt coll).eraseIdx i = A ++ B ∧
      viewOf filt (coll.filter (fun z => z.id ≠ eid)) = A ++ B := by
  obtain ⟨A, y, B, hv, hi, hy, hA⟩ :=
    findIdx?_some_decomp _ (viewOf filt coll) i 0 hfi
  have hyid : y.id = eid := of_decide_eq_true hy
  have hAid : ∀ z ∈ A, z.id ≠ eid := by
    intro z hz
    have := hA z hz
    simpa using this
  have hndv : (idsOf (viewOf filt coll)).Nodup := viewOf_ids_nodup filt coll hnd
  have hBid : ∀ z ∈ B, z.id ≠ eid := by
    intro z hz
    have hpw : (idsOf (viewOf filt coll)).Pairwise (fun a b => a ≠ b) := hndv
    rw [hv, idsOf, List.map_append, List.map_cons] at hpw
    have := (List.pairwise_append.mp hpw).2.1
    have hyz := (List.pairwise_cons.mp this).1 z.id
      (List.mem_map_of_mem (fun w => w.id) hz)
    intro hc
    exact hyz (hyid.trans hc.symm)
  rw [Nat.zero_add] at hi
  refine ⟨A, y, B, hv, hi, hyid, ?_, ?_⟩
  · rw [hv, hi]
    exact eraseIdx_append_middle A y B
  · have hstep : viewOf filt (coll.filter (fun z => z.id ≠ eid)) =
        (viewOf filt coll).filter (fun z => z.id ≠ eid) := by
      unfold viewOf
      rw [List.filter_comm, sortEvents_filter_comm (fun z => z.id ≠ eid)
        (coll.filter filt) ((idsOf_sublist (List.filter_sublist coll)).nodup hnd)]
    rw [hstep, hv, List.filter_append, List.filter_cons,
      if_neg (by simp [hyid]),
      List.filter_eq_self.mpr (fun z hz => by simp [hAid z hz]),
      List.filter_eq_self.mpr (fun z hz => by simp [hBid z hz])]

/-- Insertion of a fresh id that passes the filter: orderedInsert splits
the view, the inserted position is found by id, and the result is the view
of the extended collection. -/
theorem insert_phase (filt : Event → Bool) (mid : List Event) (e : Event)
    (hnd : (idsOf mid).Nodup) (hfresh : ∀ z ∈ mid, z.id ≠ e.id)
    (hf : filt e = true) :
    ∃ A B, viewOf filt mid = A ++ B ∧
      List.orderedInsert Event.ordLe e (viewOf filt mid) = A ++ e :: B ∧
      (List.orderedInsert Event.ordLe e (viewOf filt mid)).findIdx?
        (fun z => z.id = e.id) = some A.length ∧
      A ++ e :: B = viewOf filt (mid ++ [e]) := by
  refine ⟨(viewOf filt mid).takeWhile (fun b => decide ¬ Event.ordLe e b),
    (viewOf filt mid).dropWhile (fun b => decide ¬ Event.ordLe e b),
    (List.takeWhile_append_dropWhile _ _).symm,
    List.orderedInsert_eq_take_drop Event.ordLe e (viewOf filt mid), ?_, ?_⟩
  · rw [List.orderedInsert_eq_take_drop Event.ordLe e (viewOf filt mid)]
    rw [findIdx?_append_middle _ _ e _ 0 ?_ (by simp)]
    · rw [Nat.zero_add]
    · intro z hz
      have hzv : z ∈ viewOf filt mid :=
        (List.takeWhile_sublist _).mem hz
      have hzid : z.id ≠ e.id := hfresh z (mem_viewOf.mp hzv).1
      simpa using hzid
  · rw [← List.orderedInsert_eq_take_drop Event.ordLe e (viewOf filt mid)]
    show sortEvents (e :: mid.filter filt) = _
    unfold viewOf
    rw [List.filter_append]
    have hfe : [e].filter filt = [e] := by
      simp [hf]
    rw [hfe]
    apply sortEvents_eq_of_perm
    · exact (List.perm_append_singleton e (mid.filter filt)).symm
    · show (idsOf (e :: mid.filter filt)).Nodup
      rw [idsOf, List.map_cons, List.nodup_cons]
      refine ⟨?_, (idsOf_sublist (List.filter_sublist mid)).nodup hnd⟩
      intro hc
      rcases List.mem_map.mp hc with ⟨z, hz, hzid⟩
      exact hfresh z (List.mem_filter.mp hz).1 hzid

theorem map_no_replace (P : List Event) (e : Event)
    (hP : ∀ z ∈ P, z.id ≠ e.id) :
    P.map (fun z => if z.id = e.id then e else z) = P := by
  induction P with
  | nil => rfl
  | cons a P' ih =>
    rw [List.map_cons, if_neg (hP a (List.mem_cons_self a P')),
      ih (fun z hz => hP z (List.mem_cons_of_mem a hz))]

/-- Replacing the (unique) event with e's id in the collection is, up to
permutation, removing it and appending e; ids stay unchanged. -/
theorem replace_decomp (coll : List Event) (e : Event)
    (hnd : (idsOf coll).Nodup) (hmem : ∃ z ∈ coll, z.id = e.id) :
    (coll.map (fun z => if z.id = e.id then e else z)).Perm
      ((coll.filter (fun z => z.id ≠ e.id)) ++ [e]) ∧
    idsOf (coll.map (fun z => if z.id = e.id then e else z)) = idsOf coll := by
  have hfs : (coll.find? (fun z => z.id = e.id)).isSome = true := by
    rw [List.find?_isSome]
    obtain ⟨z, hz, hzid⟩ := hmem
    exact ⟨z, hz, by simp [hzid]⟩
  obtain ⟨y, hyf⟩ := Option.isSome_iff_exists.mp hfs
  obtain ⟨hy, P, Q, hcoll, hP⟩ := List.find?_eq_some.mp hyf
  have hyid : y.id = e.id := of_decide_eq_true hy
  have hPid : ∀ z ∈ P, z.id ≠ e.id := by
    intro z hz
    have := hP z hz
    simpa using this
  have hQid : ∀ z ∈ Q, z.id ≠ e.id := by
    intro z hz
    rw [hcoll, idsOf, List.map_append, List.map_cons] at hnd
    have hpw := (List.pairwise_append.mp hnd).2.1
    have hyz := (List.pairwise_cons.mp hpw).1 z.id
      (List.mem_map_of_mem (fun w => w.id) hz)
    intro hc
    exact hyz (hyid.trans hc.symm)
  have hmap : coll.map (fun z => if z.id = e.id then e else z) = P ++ e :: Q := by
    rw [hcoll, List.map_append, List.map_cons, if_pos hyid,
      map_no_replace P e hPid, map_no_replace Q e hQid]
  have hfil : coll.filter (fun z => z.id ≠ e.id) = P ++ Q := by
    rw [hcoll, List.filter_append, List.filter_cons, if_neg (by simp [hyid]),
      List.filter_eq_self.mpr (fun z hz => by simp [hPid z hz]),
      List.filter_eq_self.mpr (fun z hz => by simp [hQid z hz])]
  constructor
  · rw [hmap, hfil]
    exact List.perm_middle.trans (List.perm_append_singleton e (P ++ Q)).symm
  · rw [idsOf, idsOf, List.map_map]
    apply List.map_congr_left
    intro z hz
    by_cases hzid : z.id = e.id
    · simp [Function.comp, if_pos hzid, hzid]
    · simp [Function.comp, if_neg hzid]

/-! ### applyEventChange case equations -/

theorem applyEventChange_Added (filt : Event → Bool) (v : List Event) (e : Event) :
    applyEventChange ⟨filt, v⟩ (EventChange.Added e) =
      if filt e then
        (⟨filt, List.orderedInsert Event.ordLe e v⟩, none,
          (List.orderedInsert Event.ordLe e v).findIdx? (fun z => z.id = e.id))
      else (⟨filt, v⟩, none, none) := by
  by_cases hf : filt e
  · rw [if_pos hf]
    unfold applyEventChange
    simp [hf]
  · rw [if_neg hf]
    unfold applyEventChange
    simp [hf]

theorem applyEventChange_Deleted (filt : Event → Bool) (v : List Event) (e : Event) :
    applyEventChange ⟨filt, v⟩ (EventChange.Deleted e) =
      match v.findIdx? (fun o => o.id = e.id) with
      | some i => (⟨filt, v.eraseIdx i⟩, some i, none)
      | none => (⟨filt, v⟩, none, none) := by
  cases hfi : v.findIdx? (fun o => o.id = e.id) with
  | none =>
    unfold applyEventChange
    simp [hfi]
  | some i =>
    unfold applyEventChange
    simp [hfi]

theorem applyEventChange_Edited (filt : Event → Bool) (v : List Event) (e : Event) :
    applyEventChange ⟨filt, v⟩ (EventChange.Edited e) =
      match v.findIdx? (fun o => o.id = e.id) with
      | some i =>
        if filt e then
          (⟨filt, List.orderedInsert Event.ordLe e (v.eraseIdx i)⟩, some i,
            (List.orderedInsert Event.ordLe e (v.eraseIdx i)).findIdx?
              (fun z => z.id = e.id))
        else (⟨filt, v.eraseIdx i⟩, some i, none)
      | none =>
        if filt e then
          (⟨filt, List.orderedInsert Event.ordLe e v⟩, none,
            (List.orderedInsert Event.ordLe e v).findIdx? (fun z => z.id = e.id))
        else (⟨filt, v⟩, none, none) := by
  cases hfi : v.findIdx? (fun o => o.id = e.id) with
  | none =>
    by_cases hf : filt e
    · unfold applyEventChange
      simp [hfi, hf]
    · unfold applyEventChange
      simp [hfi, hf]
  | some i =>
    by_cases hf : filt e
    · unfold applyEventChange
      simp [hfi, hf]
    · unfold applyEventChange
      simp [hfi, hf]

/-- The spec-modelled Alert arm coincides with the Edited arm. -/
theorem applyEventChange_Alert_eq_Edited (st : ChannelEvents) (e : Event) :
    applyEventChange st (EventChange.Alert e) =
      applyEventChange st (EventChange.Edited e) := rfl

theorem nodup_ids_append_fresh (coll : List Event) (e : Event)
    (hnd : (idsOf coll).Nodup) (hfresh : ∀ z ∈ coll, z.id ≠ e.id) :
    (idsOf (coll ++ [e])).Nodup := by
  rw [idsOf, List.map_append]
  refine List.Nodup.append hnd (List.nodup_singleton _) ?_
  intro a ha hb
  rcases List.mem_map.mp ha with ⟨z, hz, hzid⟩
  have hb' : a = e.id := by simpa using hb
  exact hfresh z hz (hzid.symm ▸ hb')

theorem mid_ids_nodup (coll : List Event) (eid : EventId)
    (hnd : (idsOf coll).Nodup) :
    (idsOf (coll.filter (fun z => z.id ≠ eid))).Nodup :=
  (idsOf_sublist (List.filter_sublist coll)).nodup hnd

theorem mid_fresh (coll : List Event) (eid : EventId) :
    ∀ z ∈ coll.filter (fun z => z.id ≠ eid), z.id ≠ eid := by
  intro z hz
  have := (List.mem_filter.mp hz).2
  simpa using this

theorem viewOf_append_not_filt (filt : Event → Bool) (mid : List Event)
    (e : Event) (hf : filt e = false) :
    viewOf filt (mid ++ [e]) = viewOf filt mid := by
  unfold viewOf
  rw [List.filter_append]
  simp [hf]

/-- The channel synchronizer step is correct for an Edited change whose id
is present in the collection: the new state's set is the view of the
replaced collection, ids stay nodup, and replaying the emitted updates on
the old view yields the new view. -/
theorem channel_step_replace (filt : Event → Bool) (coll : List Event)
    (e : Event) (hnd : (idsOf coll).Nodup) (hmem : ∃ z ∈ coll, z.id = e.id) :
    (applyEventChange ⟨filt, viewOf filt coll⟩ (EventChange.Edited e)).1 =
      ⟨filt, viewOf filt (coll.map (fun z => if z.id = e.id then e else z))⟩ ∧
    (idsOf (coll.map (fun z => if z.id = e.id then e else z))).Nodup ∧
    applyUpdates (viewOf filt coll)
      (createUpdates
        (applyEventChange ⟨filt, viewOf filt coll⟩
          (EventChange.Edited e)).1.events
        (applyEventChange ⟨filt, viewOf filt coll⟩ (EventChange.Edited e)).2.1
        (applyEventChange ⟨filt, viewOf filt coll⟩
          (EventChange.Edited e)).2.2) =
      viewOf filt (coll.map (fun z => if z.id = e.id then e else z)) := by
  obtain ⟨hperm, hids⟩ := replace_decomp coll e hnd hmem
  have hnd' : (idsOf (coll.map (fun z => if z.id = e.id then e else z))).Nodup := by
    rw [hids]
    exact hnd
  have hmidnd := mid_ids_nodup coll e.id hnd
  have hmidfresh := mid_fresh coll e.id
  have hview' : viewOf filt (coll.map (fun z => if z.id = e.id then e else z)) =
      viewOf filt ((coll.filter (fun z => z.id ≠ e.id)) ++ [e]) := by
    unfold viewOf
    exact sortEvents_eq_of_perm (hperm.filter filt)
      ((idsOf_sublist (List.filter_sublist _)).nodup hnd')
  rw [applyEventChange_Edited]
  cases hfi : (viewOf filt coll).findIdx? (fun o => o.id = e.id) with
  | some i =>
    obtain ⟨A, y, B, hv, hi, hyid, herase, hmidview⟩ :=
      remove_found filt coll e.id i hnd hfi
    have hEv : (viewOf filt coll).eraseIdx i =
        viewOf filt (coll.filter (fun z => z.id ≠ e.id)) :=
      herase.trans hmidview.symm
    by_cases hf : filt e
    · dsimp only
      rw [if_pos hf]
      obtain ⟨A', B', hAB', hins, hfind, hview2⟩ :=
        insert_phase filt (coll.filter (fun z => z.id ≠ e.id)) e hmidnd
          hmidfresh hf
      dsimp only
      refine ⟨?_, hnd', ?_⟩
      · rw [hEv, hins, hview', ← hview2]
      · rw [hEv, hfind, hins, hview', ← hview2, hv, hi]
        exact replay_update A B A' B' y e (hmidview.symm.trans hAB')
    · have hf' : filt e = false := by simpa using hf
      dsimp only
      rw [if_neg hf]
      dsimp only
      refine ⟨?_, hnd', ?_⟩
      · rw [hEv, hview', viewOf_append_not_filt filt _ e hf']
      · show (viewOf filt coll).eraseIdx i =
          viewOf filt (coll.map (fun z => if z.id = e.id then e else z))
        rw [hEv, hview', viewOf_append_not_filt filt _ e hf']
  | none =>
    have hmidv := remove_not_found filt coll e.id hfi
    by_cases hf : filt e
    · dsimp only
      rw [if_pos hf]
      obtain ⟨A', B', hAB', hins, hfind, hview2⟩ :=
        insert_phase filt (coll.filter (fun z => z.id ≠ e.id)) e hmidnd
          hmidfresh hf
      dsimp only
      rw [← hmidv]
      refine ⟨?_, hnd', ?_⟩
      · rw [hins, hview', ← hview2]
      · rw [hfind, hins, hview', ← hview2, hAB']
        exact replay_insert A' B' e
    · have hf' : filt e = false := by simpa using hf
      dsimp only
      rw [if_neg hf]
      dsimp only
      refine ⟨?_, hnd', ?_⟩
      · rw [hview', viewOf_append_not_filt filt _ e hf', hmidv]
      · show viewOf filt coll =
          viewOf filt (coll.map (fun z => if z.id = e.id then e else z))
        rw [hview', viewOf_append_not_filt filt _ e hf', hmidv]

/-- One synchronizer step is correct for every well-formed change: starting
from the view of the collection, apply_event_change leaves the filter
unchanged and moves the set to the view of the changed collection, ids stay
nodup, and replaying the emitted updates on the old view yields the new
view. -/
theorem channel_step_correct (filt : Event → Bool) (coll : List Event)
    (ch : EventChange) (hnd : (idsOf coll).Nodup)
    (hwf : wfChangeB coll ch = true) :
    (applyEventChange ⟨filt, viewOf filt coll⟩ ch).1 =
      ⟨filt, viewOf filt (applyCollChange coll ch)⟩ ∧
    (idsOf (applyCollChange coll ch)).Nodup ∧
    applyUpdates (viewOf filt coll)
      (createUpdates (applyEventChange ⟨filt, viewOf filt coll⟩ ch).1.events
        (applyEventChange ⟨filt, viewOf filt coll⟩ ch).2.1
        (applyEventChange ⟨filt, viewOf filt coll⟩ ch).2.2) =
      viewOf filt (applyCollChange coll ch) := by
  cases ch with
  | Edited e =>
    have hmem : ∃ z ∈ coll, z.id = e.id := by
      simpa [wfChangeB, List.any_eq_true] using hwf
    exact channel_step_replace filt coll e hnd hmem
  | Alert e =>
    have hmem : ∃ z ∈ coll, z.id = e.id := by
      simpa [wfChangeB, List.any_eq_true] using hwf
    exact channel_step_replace filt coll e hnd hmem
  | Added e =>
    have hfresh : ∀ z ∈ coll, z.id ≠ e.id := by
      simpa [wfChangeB, List.all_eq_true] using hwf
    simp only [applyCollChange]
    rw [applyEventChange_Added]
    by_cases hf : filt e
    · rw [if_pos hf]
      obtain ⟨A, B, hAB, hins, hfind, hview2⟩ :=
        insert_phase filt coll e hnd hfresh hf
      dsimp only
      refine ⟨?_, nodup_ids_append_fresh coll e hnd hfresh, ?_⟩
      · rw [hins, ← hview2]
      · rw [hfind, hins, ← hview2, hAB]
        exact replay_insert A B e
    · have hf' : filt e = false := by simpa using hf
      rw [if_neg hf]
      dsimp only
      refine ⟨?_, nodup_ids_append_fresh coll e hnd hfresh, ?_⟩
      · rw [viewOf_append_not_filt filt coll e hf']
      · show viewOf filt coll = viewOf filt (coll ++ [e])
        rw [viewOf_append_not_filt filt coll e hf']
  | Deleted e =>
    simp only [applyCollChange]
    rw [applyEventChange_Deleted]
    cases hfi : (viewOf filt coll).findIdx? (fun o => o.id = e.id) with
    | some i =>
      obtain ⟨A, y, B, hv, hi, hyid, herase, hmidview⟩ :=
        remove_found filt coll e.id i hnd hfi
      dsimp only
      refine ⟨?_, mid_ids_nodup coll e.id hnd, ?_⟩
      · rw [herase, hmidview]
      · show (viewOf filt coll).eraseIdx i =
          viewOf filt (coll.filter (fun x => x.id ≠ e.id))
        rw [herase, hmidview]
    | none =>
      dsimp only
      refine ⟨?_, mid_ids_nodup coll e.id hnd, ?_⟩
      · rw [remove_not_found filt coll e.id hfi]
      · show viewOf filt coll = viewOf filt (coll.filter (fun x => x.id ≠ e.id))
        rw [remove_not_found filt coll e.id hfi]

/-- Running a well-formed change sequence keeps the synchronizer state and
the external list equal to the view of the evolving collection. -/
theorem channel_run_invariant (filt : Event → Bool) (chs : List EventChange) :
    ∀ coll : List Event, (idsOf coll).Nodup → wfChangesB coll chs = true →
    channelRun (⟨filt, viewOf filt coll⟩, viewOf filt coll) chs =
      (⟨filt, viewOf filt (applyCollChanges coll chs)⟩,
        viewOf filt (applyCollChanges coll chs)) := by
  induction chs with
  | nil =>
    intro coll _ _
    rfl
  | cons ch rest ih =>
    intro coll hnd hwf
    rw [wfChangesB, Bool.and_eq_true] at hwf
    obtain ⟨hstep1, hstep2, hstep3⟩ := channel_step_correct filt coll ch hnd hwf.1
    have hrun : channelRun (⟨filt, viewOf filt coll⟩, viewOf filt coll)
        (ch :: rest) =
        channelRun (channelStep (⟨filt, viewOf filt coll⟩, viewOf filt coll) ch)
          rest := rfl
    have hstepEq : channelStep (⟨filt, viewOf filt coll⟩, viewOf filt coll) ch =
        (⟨filt, viewOf filt (applyCollChange coll ch)⟩,
          viewOf filt (applyCollChange coll ch)) := by
      unfold channelStep
      dsimp only
      rw [hstep3, hstep1]
    rw [hrun, hstepEq]
    exact ih (applyCollChange coll ch) hstep2 hwf.2

/-- C1 (view replay correctness): for every filter, every initial
collection with unique ids, and every sequence of Added/Edited/Deleted
changes that the event manager can emit (Added ids fresh, Edited ids
present), replaying the operations emitted by apply_event_change — New
appends at the end, Update replaces at its index, Delete removes at its
index — against an external list that starts as the filtered+sorted
initial collection yields, after the whole sequence, exactly the
filtered+sorted final collection, index for index. -/
theorem view_replay_correct (filt : Event → Bool) (coll : List Event)
    (chs : List EventChange) (hnd : (idsOf coll).Nodup)
    (hwf : wfChangesB coll chs = true)
    (halert : ∀ ch ∈ chs, ch.isAlert = false) :
    (channelRun (ChannelEvents.new filt coll, viewOf filt coll) chs).2 =
      viewOf filt (applyCollChanges coll chs) := by
  have hnew : ChannelEvents.new filt coll =
      (⟨filt, viewOf filt coll⟩ : ChannelEvents) := rfl
  rw [hnew, channel_run_invariant filt chs coll hnd hwf]

/-- Witness for C1: a concrete three-change replay (add, edit into the
filter, delete) over a two-event collection satisfies the hypotheses and
the replayed external list equals the final filtered+sorted view. -/
theorem view_replay_correct_witness :
    (idsOf c1Events).Nodup ∧ wfChangesB c1Events c1Changes = true ∧
    (∀ ch ∈ c1Changes, ch.isAlert = false) ∧
    (channelRun (ChannelEvents.new c1Filt c1Events, viewOf c1Filt c1Events)
        c1Changes).2 =
      viewOf c1Filt (applyCollChanges c1Events c1Changes) :=
  ⟨by decide, by decide, by decide,
    view_replay_correct c1Filt c1Events c1Changes (by decide) (by decide)
      (by decide)⟩

/-- C9 (Alert changes synchronize views): the synchronizer handles an
Alert change exactly like an Edited one — remove the old entry with the
matching id from the sorted set (recording its index), re-test the filter
on the new snapshot and re-insert it in sort order (recording its index) —
so whenever the alerted id is present in a collection with unique ids, the
set becomes the view of the collection with the alerted snapshot
substituted, and replaying the emitted operations refreshes the external
list to that view. -/
theorem alert_change_updates_view :
    (∀ (st : ChannelEvents) (e : Event),
      applyEventChange st (EventChange.Alert e) =
        applyEventChange st (EventChange.Edited e)) ∧
    (∀ (filt : Event → Bool) (coll : List Event) (e : Event),
      (idsOf coll).Nodup → (∃ z ∈ coll, z.id = e.id) →
      (applyEventChange ⟨filt, viewOf filt coll⟩
          (EventChange.Alert e)).1.events =
        viewOf filt (coll.map (fun z => if z.id = e.id then e else z)) ∧
      applyUpdates (viewOf filt coll)
        (createUpdates
          (applyEventChange ⟨filt, viewOf filt coll⟩
            (EventChange.Alert e)).1.events
          (applyEventChange ⟨filt, viewOf filt coll⟩
            (EventChange.Alert e)).2.1
          (applyEventChange ⟨filt, viewOf filt coll⟩
            (EventChange.Alert e)).2.2) =
        viewOf filt (coll.map (fun z => if z.id = e.id then e else z))) := by
  refine ⟨fun st e => rfl, fun filt coll e hnd hmem => ?_⟩
  obtain ⟨h1, h2, h3⟩ := channel_step_replace filt coll e hnd hmem
  exact ⟨congrArg ChannelEvents.events h1, h3⟩

/-- Witness for C9: alerting the first of two events (unique ids, id
present) leaves the set equal to the view of the collection with the
alerted snapshot substituted. -/
theorem alert_change_updates_view_witness :
    (idsOf c9Events).Nodup ∧ (∃ z ∈ c9Events, z.id = c9Alerted.id) ∧
    (applyEventChange ⟨fun _ => true, viewOf (fun _ => true) c9Events⟩
        (EventChange.Alert c9Alerted)).1.events =
      viewOf (fun _ => true)
        (c9Events.map (fun z => if z.id = c9Alerted.id then c9Alerted else z)) :=
  ⟨by decide, by decide,
    (alert_change_updates_view.2 (fun _ => true) c9Events c9Alerted (by decide)
      (by decide)).1⟩

end Failsafe
